import Mathlib

/-!
# Verification of the AA228 college-application planner

Shallow embedding of the decision-planning core of the repository:
`models.py` (`school_reward`, `expected_essay_improvement`),
`mcts.py` (`get_total_hours`, `available_actions`, `apply_action`,
`MCTSNode`, `mcts_search`, rollout loop) and
`calculate_college_probability.py` (`get_sat_percentile`,
`get_essay_percentile`, `get_probability`).

Python floats are modelled as exact rationals (`ℚ`).  External numeric
libraries (`scipy.optimize.curve_fit`, the normal CDF and inverse CDF of
`statistics.NormalDist` / `scipy.stats.norm`) are modelled as explicit
oracle parameters, since their values are opaque floating-point
computations; everything the repository itself computes is embedded
concretely.  Python exceptions (`KeyError` from dict lookups) are
modelled with `Option`.  Python dicts are modelled as association lists
with first-occurrence lookup, in-place update of an existing key and
append of a new key — exactly the observable behaviour of small
`dict`s as used by the source.
-/

/-- The `School` record from `models.py` (a `TypedDict`).  The source spells
the preference field `desireability`. -/
structure School where
  name : String
  acceptance_rate : ℚ
  SAT_quartiles : List Int
  applying : Bool
  desireability : Int
deriving DecidableEq

/-- One `{hours, score}` checkpoint of an essay-score history. -/
structure Checkpoint where
  hours : ℚ
  score : ℚ
deriving DecidableEq

/-- The `Student` record from `models.py`.  The two dict-valued fields are
modelled as association lists. -/
structure Student where
  sat_score : Int
  gpa : ℚ
  gpa_percentile : ℚ
  application_scores : List (String × ℚ)
  application_score_history : List (String × List Checkpoint)
deriving DecidableEq

/-- Python `d[k]` / `d.get(k)`: value at the first (unique) occurrence
of key `k`, `none` when the key is absent (a `KeyError` in Python). -/
def dictLookup {κ : Type} {α : Type} [DecidableEq κ] (d : List (κ × α)) (k : κ) : Option α :=
  (d.find? (fun kv => decide (kv.1 = k))).map (·.2)

/-- Python `d.get(k, dflt)`. -/
def dictGet {κ : Type} {α : Type} [DecidableEq κ] (d : List (κ × α)) (k : κ) (dflt : α) : α :=
  (dictLookup d k).getD dflt

/-- Python `d[k] = v`: replace the value at an existing key in place,
otherwise append the new binding at the end (dict insertion order). -/
def dictInsert {κ : Type} {α : Type} [DecidableEq κ] (d : List (κ × α)) (k : κ) (v : α) :
    List (κ × α) :=
  match d with
  | [] => [(k, v)]
  | kv :: rest => if kv.1 = k then (k, v) :: rest else kv :: dictInsert rest k v

/-- Descending-desirability comparison used by the `list.sort(key=...,
reverse=True)` call in `school_reward`. -/
def desGE (a b : School) : Prop := b.desireability ≤ a.desireability

instance : DecidableRel desGE := fun a b =>
  inferInstanceAs (Decidable (b.desireability ≤ a.desireability))

instance : IsTotal School desGE := ⟨fun a b => le_total b.desireability a.desireability⟩

instance : IsTrans School desGE := ⟨fun _ _ _ h1 h2 => le_trans h2 h1⟩

/-- Desirability of a school as a rational (the source adds the integer
field into a float accumulator). -/
def desire (s : School) : ℚ := (s.desireability : ℚ)

/-- The resolution loop of `school_reward`: each admitted name is
resolved to the first catalog entry carrying that name (the inner
`for`/`break`); names with no catalog entry are silently dropped. -/
def resolveAdmitted (admitted_schools : List String) (schools_data : List School) :
    List School :=
  admitted_schools.filterMap (fun nm => schools_data.find? (fun s => decide (s.name = nm)))

/-- Maximum desirability of the nonempty list `s :: l`. -/
def maxDesire (s : School) (l : List School) : ℚ :=
  (l.map desire).foldl max (desire s)

/-- Sum of the desirabilities of a list of schools. -/
def sumDesire (l : List School) : ℚ :=
  (l.map desire).sum

/-- Embeds `models.school_reward`: resolve each admitted name to the first
catalog entry with that name (names with no entry are dropped), sort the
resolved entries by desirability descending (a stable sort, like
Python's), then accumulate `top + Σ rest·l`. -/
def school_reward (admitted_schools : List String) (schools_data : List School) (l : ℚ) : ℚ :=
  let admitted_schools_data := resolveAdmitted admitted_schools schools_data
  match List.insertionSort desGE admitted_schools_data with
  | [] => 0
  | top :: rest => rest.foldl (fun r s => r + desire s * l) (desire top)

/-- Oracle abstracting the `scipy.optimize.curve_fit` call of
`expected_essay_improvement` together with the evaluation of the fitted
log curve at `max(hours_shifted) + 2`: given the shifted hours and the
scores it returns `some projected_score`, or `none` when the fit raises
or exceeds its iteration budget (the `except` branch of the source). -/
abbrev FitOracle : Type := List ℚ → List ℚ → Option ℚ

/-- Embeds `models.expected_essay_improvement`.  0 checkpoints → 800; one
checkpoint → `score + 7·2`; two checkpoints → linear extrapolation with
denominator `max 1e-6 (h1-h0)`; three or more → shift the hours so the
log argument stays positive and consult the curve-fit oracle, falling
back on plain linear extrapolation between the first and last
checkpoints (denominator `(h_last - h_first) + 1e-6`) when the fit
fails. -/
def expected_essay_improvement (fit : FitOracle) (essay_score_history : List Checkpoint) : ℚ :=
  match essay_score_history with
  | [] => 800
  | [p] => p.score + 7 * 2
  | [p0, p1] => p1.score + (p1.score - p0.score) / max (1 / 1000000) (p1.hours - p0.hours) * 2
  | p0 :: p1 :: p2 :: rest =>
    let pts := p0 :: p1 :: p2 :: rest
    let hours := pts.map Checkpoint.hours
    let scores := pts.map Checkpoint.score
    let hmin := ((p1 :: p2 :: rest).map Checkpoint.hours).foldl min p0.hours
    let min_shift := max 0 (1 / 1000 - hmin)
    let hours_shifted := hours.map (· + min_shift)
    match fit hours_shifted scores with
    | some projected_score => projected_score
    | none =>
      let hLast := hours.getLastD 0
      let sLast := scores.getLastD 0
      let total_hours_spent := hLast - p0.hours
      let slope := (sLast - p0.score) / (total_hours_spent + 1 / 1000000)
      sLast + slope * 2

/-- Constant `MAX_HOURS_PER_SCHOOL` of `mcts.py`. -/
def MAX_HOURS_PER_SCHOOL : ℚ := 2

/-- Constant `COST_PER_HOUR` of `mcts.py`. -/
def COST_PER_HOUR : ℚ := -(1 / 2)

/-- Constant `STOP_ACTION` of `mcts.py`. -/
def STOP_ACTION : String := "STOP"

/-- Embeds `mcts.get_total_hours`: `max(point["hours"])` over the school's
history, `0` when the history is absent or empty. -/
def get_total_hours (student : Student) (school_name : String) : ℚ :=
  match dictGet student.application_score_history school_name [] with
  | [] => 0
  | p :: ps => (ps.map Checkpoint.hours).foldl max p.hours

/-- Embeds `mcts.available_actions`: the names of the applying schools whose
invested hours are still below `MAX_HOURS_PER_SCHOOL`, with the `STOP`
sentinel appended last. -/
def available_actions (student : Student) (schools_data : List School) : List String :=
  (schools_data.filterMap (fun school =>
    if school.applying ∧ get_total_hours student school.name < MAX_HOURS_PER_SCHOOL
    then some school.name else none)) ++ [STOP_ACTION]

/-- Embeds `mcts.apply_action`.  The deep copies performed by the source
(`copy_student`, `copy_schools`) are the identity in this pure model;
the function returns the post-action student, the (unchanged) catalog
and the hours spent. -/
def apply_action (fit : FitOracle) (student : Student) (schools_data : List School)
    (action : String) : Student × List School × ℚ :=
  if action = STOP_ACTION then (student, schools_data, 0)
  else
    let hours_spent : ℚ := 2
    let history := dictGet student.application_score_history action []
    let new_score := expected_essay_improvement fit history
    let current_hours := get_total_hours student action
    let new_hours := current_hours + hours_spent
    (⟨student.sat_score, student.gpa, student.gpa_percentile,
      dictInsert student.application_scores action new_score,
      dictInsert student.application_score_history action
        (history ++ [⟨new_hours, new_score⟩])⟩,
     schools_data, hours_spent)

/-- Embeds `calculate_college_probability.get_sat_percentile`: exact lookup of
the SAT score in the percentile table divided by 100; `none` models the
`KeyError` raised on a score that is not an exact key. -/
def get_sat_percentile (sat_table : List (Int × Int)) (sat_score : Int) : Option ℚ :=
  (dictLookup sat_table sat_score).map (fun p => (p : ℚ) / 100)

/-- Embeds `calculate_college_probability.get_essay_percentile`, with the
standard-normal CDF passed as an oracle (`scipy.stats.norm.cdf` with
`loc`/`scale` is `Φ((x - loc)/scale)`). -/
def get_essay_percentile (cdf : ℚ → ℚ) (essay_score : ℚ) : ℚ :=
  cdf ((essay_score - 103245 / 100) / (6652 / 100))

/-- Embeds `calculate_college_probability.get_probability`, with the
standard-normal CDF and inverse CDF passed as oracles and the two data
files (`schools.json` catalog, `sat_percentiles.csv` table) passed as
explicit arguments.  `none` models the `KeyError` on an unknown SAT
score or school name. -/
def get_probability (cdf invCdf : ℚ → ℚ) (colleges : List (String × ℚ))
    (sat_table : List (Int × Int)) (school : String) (sat_score : Int)
    (gpa_percentile essay_score : ℚ) : Option ℚ :=
  match get_sat_percentile sat_table sat_score with
  | none => none
  | some sat_percentile =>
    let w_sat : ℚ := 1 / 4
    let w_gpa : ℚ := 1 / 4
    let w_essay : ℚ := 1 / 2
    let essay_percentile := get_essay_percentile cdf essay_score
    let eps : ℚ := 1 / 1000000
    let sat_p := min (1 - eps) (max eps sat_percentile)
    let gpa_p := min (1 - eps) (max eps gpa_percentile)
    let essay_p := min (1 - eps) (max eps essay_percentile)
    let z_sat := invCdf sat_p
    let z_gpa := invCdf gpa_p
    let z_essay := invCdf essay_p
    let z_student := z_sat * w_sat + z_gpa * w_gpa + z_essay * w_essay
    match dictLookup colleges school with
    | none => none
    | some rate =>
      let school_acceptance_rate := rate / 100
      let z_school := invCdf (1 - school_acceptance_rate)
      some (1 - cdf ((z_school - z_student) / (1 / 2)))

/-- The random-rollout loop of `MCTSNode.rollout` (`mcts.py`), up to the
final Monte-Carlo reward evaluation, which consumes the terminal state
produced here.  `coin k` models `random.random() < 0.3` at step `k`;
`pick k` models the `random.choice` index among the non-STOP actions.
The loop is run on explicit fuel; `none` means the fuel ran out before
the loop stopped (the termination theorem shows enough fuel always
exists). -/
def rolloutLoop (fit : FitOracle) (coin : Nat → Bool) (pick : Nat → Nat) :
    Nat → Nat → Student → List School → ℚ → Option (Student × List School × ℚ)
  | 0, _, _, _, _ => none
  | fuel + 1, k, student, schools, hoursAcc =>
    let actions := available_actions student schools
    if actions = [STOP_ACTION] then some (student, schools, hoursAcc)
    else if STOP_ACTION ∈ actions ∧ coin k = true then some (student, schools, hoursAcc)
    else
      let nonStop := actions.filter (fun a => decide (a ≠ STOP_ACTION))
      if hns : nonStop = [] then some (student, schools, hoursAcc)
      else
        let a := nonStop.get ⟨pick k % nonStop.length, Nat.mod_lt _ (List.length_pos.mpr hns)⟩
        let step := apply_action fit student schools a
        rolloutLoop fit coin pick fuel (k + 1) step.1 step.2.1 (hoursAcc + step.2.2)

/-- Search-tree node (`mcts.MCTSNode`).  The mutable Python object is
modelled as an immutable tree value; the `parent` back-reference is
represented implicitly by paths (lists of child indices) from the root,
and backpropagation walks such a path instead of parent links. -/
inductive MCTSNode : Type where
  | mk (student : Student) (schools_data : List School) (total_hours_spent : ℚ)
      (action : Option String) (untried_actions : List String)
      (visits : Nat) (total_reward : ℚ) (children : List MCTSNode)

def MCTSNode.student : MCTSNode → Student
  | .mk s _ _ _ _ _ _ _ => s

def MCTSNode.schools_data : MCTSNode → List School
  | .mk _ sc _ _ _ _ _ _ => sc

def MCTSNode.total_hours_spent : MCTSNode → ℚ
  | .mk _ _ h _ _ _ _ _ => h

def MCTSNode.action : MCTSNode → Option String
  | .mk _ _ _ a _ _ _ _ => a

def MCTSNode.untried_actions : MCTSNode → List String
  | .mk _ _ _ _ u _ _ _ => u

def MCTSNode.visits : MCTSNode → Nat
  | .mk _ _ _ _ _ v _ _ => v

def MCTSNode.total_reward : MCTSNode → ℚ
  | .mk _ _ _ _ _ _ r _ => r

def MCTSNode.children : MCTSNode → List MCTSNode
  | .mk _ _ _ _ _ _ _ c => c

/-- Embeds `MCTSNode.__init__`: statistics start at zero and `untried_actions`
is initialized to the available actions of the node's state. -/
def mkNode (student : Student) (schools_data : List School) (total_hours_spent : ℚ)
    (action : Option String) : MCTSNode :=
  .mk student schools_data total_hours_spent action
    (available_actions student schools_data) 0 0 []

/-- One backpropagation touch: `visits += 1; total_reward += reward`. -/
def MCTSNode.incr : MCTSNode → ℚ → MCTSNode
  | .mk s sc h a u v r c, rw => .mk s sc h a u (v + 1) (r + rw) c

/-- Replace child `i` (no-op when `i` is out of range, which never
happens along a valid path). -/
def MCTSNode.setChild : MCTSNode → Nat → MCTSNode → MCTSNode
  | .mk s sc h a u v r c, i, c' => .mk s sc h a u v r (c.set i c')

/-- Embeds `MCTSNode.expand`: pop the last untried action (Python `list.pop`),
apply it and append the resulting child.  The `none` branch mirrors the
`IndexError` a pop from an empty list would raise; it is unreachable in
the driver, which expands only nodes that are not fully expanded. -/
def MCTSNode.expandHere (fit : FitOracle) : MCTSNode → MCTSNode
  | .mk s sc h a u v r c =>
    match u.getLast? with
    | none => .mk s sc h a u v r c
    | some act =>
      let step := apply_action fit s sc act
      .mk s sc h a u.dropLast v r (c ++ [mkNode step.1 step.2.1 (h + step.2.2) (some act)])

/-- Node addressed by a path of child indices from the given root. -/
def followPath : List Nat → MCTSNode → Option MCTSNode
  | [], t => some t
  | i :: p, t =>
    match t.children[i]? with
    | none => none
    | some c => followPath p c

/-- Embeds `MCTSNode.backpropagate`, seen from the root: increment the
statistics of every node on the path from the root down to the rollout
start (the Python code walks the same set of nodes upward through
`parent` links). -/
def backpropPath (r : ℚ) : List Nat → MCTSNode → MCTSNode
  | [], t => t.incr r
  | i :: p, t =>
    match t.children[i]? with
    | none => t.incr r
    | some c => (t.incr r).setChild i (backpropPath r p c)

/-- Embeds `MCTSNode.is_terminal`. -/
def MCTSNode.isTerminal (t : MCTSNode) : Prop :=
  t.action = some STOP_ACTION ∨ (available_actions t.student t.schools_data).length = 1

instance (t : MCTSNode) : Decidable t.isTerminal := by
  unfold MCTSNode.isTerminal; infer_instance

/-- Embeds `MCTSNode.is_fully_expanded`. -/
def MCTSNode.fullyExpanded (t : MCTSNode) : Prop :=
  t.untried_actions = []

instance (t : MCTSNode) : Decidable t.fullyExpanded := by
  unfold MCTSNode.fullyExpanded; infer_instance

mutual

/-- Number of nodes of the tree (computable size measure used as fuel
for the selection descent). -/
def MCTSNode.size : MCTSNode → Nat
  | .mk _ _ _ _ _ _ _ c => sizeNodes c + 1

/-- Total number of nodes of a forest. -/
def sizeNodes : List MCTSNode → Nat
  | [] => 0
  | t :: ts => MCTSNode.size t + sizeNodes ts

end

/-- Average reward used by the final child comparison of `mcts_search`
(zero-visit children count as average `0` there). -/
def avgReward (c : MCTSNode) : ℚ :=
  if 0 < c.visits then c.total_reward / (c.visits : ℚ) else 0

/-- Python `max(children, key=avgReward)`: keeps the first child on
ties, replacing the current best only on a strictly larger key. -/
def argmaxChild : MCTSNode → List MCTSNode → MCTSNode
  | best, [] => best
  | best, c :: cs => argmaxChild (if avgReward best < avgReward c then c else best) cs

/-- One iteration of the generic MCTS loop of `mcts_search`: descend by
selection while the node is non-terminal and fully expanded, expand one
child if the reached node is non-terminal and not fully expanded, then
backpropagate the rollout reward from the reached node; the returned
path is the set of nodes the backpropagation pass touched.  `sel`
abstracts the UCB1 argmax of `best_child` (a floating-point
computation) as a child-index oracle; the rollout's scalar reward is
the `reward` argument.  Structural recursion on fuel, which callers set
to `sizeOf t`; the fuel can never run out because each descent moves to
a strict subtree. -/
def mctsIterGo (fit : FitOracle) (sel : MCTSNode → Nat) (reward : ℚ) :
    Nat → MCTSNode → MCTSNode × List Nat
  | 0, t => (t.incr reward, [])
  | fuel + 1, t =>
    if h : ¬ t.isTerminal ∧ t.fullyExpanded ∧ 0 < t.children.length then
      let i := min (sel t) (t.children.length - 1)
      have hi : i < t.children.length :=
        Nat.lt_of_le_of_lt (Nat.min_le_right _ _) (Nat.sub_lt h.2.2 one_pos)
      let cp := mctsIterGo fit sel reward fuel (t.children.get ⟨i, hi⟩)
      ((t.incr reward).setChild i cp.1, i :: cp.2)
    else if ¬ t.isTerminal ∧ ¬ t.fullyExpanded then
      (backpropPath reward [t.children.length] (t.expandHere fit), [t.children.length])
    else
      (t.incr reward, [])

/-- One selection/expansion/rollout/backpropagation iteration. -/
def mctsIter (fit : FitOracle) (sel : MCTSNode → Nat) (reward : ℚ) (t : MCTSNode) :
    MCTSNode × List Nat :=
  mctsIterGo fit sel reward t.size t

/-- First phase of `mcts_search`: expand untried root actions one by
one (each followed by a rollout and a backpropagation from the new
child) until the root is fully expanded or the wall clock — abstracted
as the `timeUp` oracle, checked after each iteration like the source —
expires.  `rewards k` is the reward of the rollout of iteration `k`;
the returned `Nat` is the iteration counter.  Fuel is set to the number
of untried root actions, which is exactly the maximum number of
iterations, so the fuel-exhausted base case is unreachable. -/
def phase1Go (fit : FitOracle) (rewards : Nat → ℚ) (timeUp : Nat → Bool) :
    Nat → Nat → MCTSNode → List (List Nat) → MCTSNode × List (List Nat) × Nat
  | 0, k, t, trace => (t, trace, k)
  | fuel + 1, k, t, trace =>
    if t.fullyExpanded then (t, trace, k)
    else
      let idx := t.children.length
      let t2 := backpropPath (rewards k) [idx] (t.expandHere fit)
      if timeUp (k + 1) = true then (t2, trace ++ [[idx]], k + 1)
      else phase1Go fit rewards timeUp fuel (k + 1) t2 (trace ++ [[idx]])

def phase1 (fit : FitOracle) (rewards : Nat → ℚ) (timeUp : Nat → Bool) (t : MCTSNode) :
    MCTSNode × List (List Nat) × Nat :=
  phase1Go fit rewards timeUp t.untried_actions.length 0 t []

/-- Second phase of `mcts_search`: `n` further MCTS iterations (`n` is
the number of times the wall-clock guard of the `while` loop passes). -/
def phase2 (fit : FitOracle) (sel : MCTSNode → Nat) (rewards : Nat → ℚ) :
    Nat → Nat → MCTSNode → List (List Nat) → MCTSNode × List (List Nat)
  | 0, _, t, trace => (t, trace)
  | n + 1, k, t, trace =>
    let tp := mctsIter fit sel (rewards k) t
    phase2 fit sel rewards n (k + 1) tp.1 (trace ++ [tp.2])

/-- Embeds `mcts.mcts_search`, instrumented: besides the recommended action it
returns the final tree and the trace of backpropagation paths (one per
rollout), which the invariant theorems quantify over.  If the root has
no children the result is `STOP`, otherwise the action of the root
child with the highest average reward (`None` actions defaulting to
`STOP`, mirroring `best_child.action or STOP_ACTION`). -/
def mcts_search (fit : FitOracle) (sel : MCTSNode → Nat) (rewards : Nat → ℚ)
    (timeUp : Nat → Bool) (n2 : Nat) (student : Student) (schools_data : List School) :
    String × MCTSNode × List (List Nat) :=
  let root := mkNode student schools_data 0 none
  let r1 := phase1 fit rewards timeUp root
  let r2 := phase2 fit sel rewards n2 r1.2.2 r1.1 r1.2.1
  match r2.1.children with
  | [] => (STOP_ACTION, r2.1, r2.2)
  | c :: cs => ((argmaxChild c cs).action.getD STOP_ACTION, r2.1, r2.2)

/-- A path addresses a node of the tree. -/
def validPath (t : MCTSNode) (p : List Nat) : Prop :=
  (followPath p t).isSome

instance (t : MCTSNode) (p : List Nat) : Decidable (validPath t p) := by
  unfold validPath; infer_instance

/-- Visit counter of the node addressed by a path. -/
def visitsAt (t : MCTSNode) (p : List Nat) : Option Nat :=
  (followPath p t).map MCTSNode.visits

/-- The statistics invariant tying a tree to the trace of
backpropagation paths performed on it: every recorded path addresses a
node, and every node's visit counter equals the number of recorded
backpropagation passes that touched it (a pass along `p` touches
exactly the nodes addressed by the prefixes of `p`). -/
def TraceCounts (t : MCTSNode) (trace : List (List Nat)) : Prop :=
  (∀ p ∈ trace, validPath t p) ∧
  ∀ q n, followPath q t = some n → n.visits = trace.countP (fun p => decide (q <+: p))

/-! ## General helper lemmas -/

theorem foldl_reward_eq (l : ℚ) (rest : List School) :
    ∀ a : ℚ, rest.foldl (fun r s => r + desire s * l) a = a + sumDesire rest * l := by
  induction rest with
  | nil => intro a; simp [sumDesire]
  | cons x xs ih =>
    intro a
    simp only [List.foldl_cons, ih, sumDesire, List.map_cons, List.sum_cons]
    ring

theorem le_foldl_max (a : ℚ) (xs : List ℚ) : a ≤ xs.foldl max a := by
  induction xs generalizing a with
  | nil => exact le_refl a
  | cons x xs ih => exact le_trans (le_max_left a x) (ih (max a x))

theorem mem_le_foldl_max (a : ℚ) (xs : List ℚ) : ∀ x ∈ xs, x ≤ xs.foldl max a := by
  induction xs generalizing a with
  | nil => intro x hx; cases hx
  | cons y ys ih =>
    intro x hx
    rcases List.mem_cons.mp hx with rfl | hx'
    · exact le_trans (le_max_right a x) (le_foldl_max (max a x) ys)
    · exact ih (max a y) x hx'

theorem foldl_max_cases (a : ℚ) (xs : List ℚ) : xs.foldl max a = a ∨ xs.foldl max a ∈ xs := by
  induction xs generalizing a with
  | nil => left; rfl
  | cons y ys ih =>
    rcases ih (max a y) with h | h
    · rcases max_choice a y with h2 | h2
      · left; rw [List.foldl_cons, h, h2]
      · right; rw [List.foldl_cons, h, h2]; exact List.mem_cons_self y ys
    · right; exact List.mem_cons_of_mem y h

theorem dictLookup_cons {κ α : Type} [DecidableEq κ] (kv : κ × α) (rest : List (κ × α))
    (k : κ) : dictLookup (kv :: rest) k = if kv.1 = k then some kv.2 else dictLookup rest k := by
  by_cases h : kv.1 = k
  · simp [dictLookup, List.find?_cons_of_pos, h]
  · simp [dictLookup, List.find?_cons_of_neg, h]

theorem dictLookup_insert_self {κ α : Type} [DecidableEq κ] (d : List (κ × α)) (k : κ)
    (v : α) : dictLookup (dictInsert d k v) k = some v := by
  induction d with
  | nil => simp [dictInsert, dictLookup_cons]
  | cons kv rest ih =>
    by_cases h : kv.1 = k
    · simp [dictInsert, h, dictLookup_cons]
    · rw [dictInsert, if_neg h, dictLookup_cons, if_neg h, ih]

theorem dictLookup_insert_ne {κ α : Type} [DecidableEq κ] (d : List (κ × α)) (k k' : κ)
    (v : α) (hne : k' ≠ k) : dictLookup (dictInsert d k v) k' = dictLookup d k' := by
  have hkk : ¬ (k = k') := fun hh => hne hh.symm
  induction d with
  | nil => simp [dictInsert, dictLookup_cons, dictLookup, hkk]
  | cons kv rest ih =>
    by_cases h : kv.1 = k
    · rw [dictInsert, if_pos h, dictLookup_cons, if_neg hkk, dictLookup_cons, h,
        if_neg hkk]
    · rw [dictInsert, if_neg h, dictLookup_cons, dictLookup_cons, ih]

/-! ## C4 — base cases of the score-projection model -/

/-- C4: for every curve-fit oracle, `expected_essay_improvement`
returns 800 on an empty history, `score + 14` on a single checkpoint
(914 on `[{hours 2, score 900}]`), and
`s1 + 2·(s1 - s0)/max 1e-6 (h1 - h0)` on exactly two checkpoints
(1000 on `[{2,900},{4,950}]`). -/
theorem expected_essay_improvement_base_cases (fit : FitOracle) :
    expected_essay_improvement fit [] = 800 ∧
    (∀ p : Checkpoint, expected_essay_improvement fit [p] = p.score + 14) ∧
    (∀ p0 p1 : Checkpoint,
      expected_essay_improvement fit [p0, p1] =
        p1.score + 2 * (p1.score - p0.score) / max (1 / 1000000) (p1.hours - p0.hours)) ∧
    expected_essay_improvement fit [⟨2, 900⟩] = 914 ∧
    expected_essay_improvement fit [⟨2, 900⟩, ⟨4, 950⟩] = 1000 := by
  have h1 : ∀ p : Checkpoint, expected_essay_improvement fit [p] = p.score + 14 := by
    intro p
    show p.score + 7 * 2 = p.score + 14
    norm_num
  have h2 : ∀ p0 p1 : Checkpoint,
      expected_essay_improvement fit [p0, p1] =
        p1.score + 2 * (p1.score - p0.score) / max (1 / 1000000) (p1.hours - p0.hours) := by
    intro p0 p1
    show p1.score + (p1.score - p0.score) / max (1 / 1000000) (p1.hours - p0.hours) * 2 = _
    ring
  refine ⟨rfl, h1, h2, ?_, ?_⟩
  · rw [h1]; show (900 : ℚ) + 14 = 914; norm_num
  · rw [h2]
    show (950 : ℚ) + 2 * ((950 : ℚ) - 900) / max (1 / 1000000) ((4 : ℚ) - 2) = 1000
    rw [show max ((1 : ℚ) / 1000000) ((4 : ℚ) - 2) = 2 from by
      rw [max_eq_right] <;> norm_num]
    norm_num

/-! ## C5 — curve-fit fallback -/

/-- C5 counterexample: on the three-checkpoint history
`[{0,800},{2,900},{4,950}]` with a failing curve fit, the fallback does
not return the linear extrapolation between the last two checkpoints
(`950 + (950-900)/max 1e-6 (4-2) · 2 = 1000`); it extrapolates between
the first and the last checkpoint instead. -/
theorem eei_fallback_counterexample :
    ¬ (expected_essay_improvement (fun _ _ => none) [⟨0, 800⟩, ⟨2, 900⟩, ⟨4, 950⟩] =
        950 + (950 - 900) / max (1 / 1000000) (4 - 2) * 2) := by
  intro h
  rw [show max ((1 : ℚ) / 1000000) ((4 : ℚ) - 2) = 2 from by
    rw [max_eq_right] <;> norm_num] at h
  simp only [expected_essay_improvement, List.map_cons, List.map_nil,
    List.getLastD_cons, List.getLastD_nil] at h
  norm_num at h

/-- C5 (amended): for three or more checkpoints, when the curve fit
fails `expected_essay_improvement` falls back to linear extrapolation
between the *first* and the last checkpoints, with denominator
`(h_last - h_first) + 1e-6` (not `max 1e-6 ...`), on the unshifted
hours and scores: it returns
`s_last + (s_last - s_first)/((h_last - h_first) + 1e-6) · 2`. -/
theorem eei_fallback_first_last (fit : FitOracle) (p0 p1 p2 : Checkpoint)
    (rest : List Checkpoint)
    (hfail : fit
        (((p0 :: p1 :: p2 :: rest).map Checkpoint.hours).map
          (· + max 0 (1 / 1000 - ((p1 :: p2 :: rest).map Checkpoint.hours).foldl min p0.hours)))
        ((p0 :: p1 :: p2 :: rest).map Checkpoint.score) = none) :
    expected_essay_improvement fit (p0 :: p1 :: p2 :: rest) =
      ((p0 :: p1 :: p2 :: rest).map Checkpoint.score).getLastD 0 +
        (((p0 :: p1 :: p2 :: rest).map Checkpoint.score).getLastD 0 - p0.score) /
          ((((p0 :: p1 :: p2 :: rest).map Checkpoint.hours).getLastD 0 - p0.hours) +
            1 / 1000000) * 2 := by
  show (match fit
      (((p0 :: p1 :: p2 :: rest).map Checkpoint.hours).map
        (· + max 0 (1 / 1000 - ((p1 :: p2 :: rest).map Checkpoint.hours).foldl min p0.hours)))
      ((p0 :: p1 :: p2 :: rest).map Checkpoint.score) with
    | some projected_score => projected_score
    | none =>
      ((p0 :: p1 :: p2 :: rest).map Checkpoint.score).getLastD 0 +
        (((p0 :: p1 :: p2 :: rest).map Checkpoint.score).getLastD 0 - p0.score) /
          ((((p0 :: p1 :: p2 :: rest).map Checkpoint.hours).getLastD 0 - p0.hours) +
            1 / 1000000) * 2) = _
  rw [hfail]

/-- C5 witness: the amended fallback formula evaluated on a concrete
three-checkpoint history with a failing fit oracle. -/
theorem eei_fallback_first_last_witness :
    expected_essay_improvement (fun _ _ => none) [⟨0, 800⟩, ⟨2, 900⟩, ⟨4, 950⟩] =
      (([⟨0, 800⟩, ⟨2, 900⟩, ⟨4, 950⟩] : List Checkpoint).map Checkpoint.score).getLastD 0 +
        (((([⟨0, 800⟩, ⟨2, 900⟩, ⟨4, 950⟩] : List Checkpoint).map Checkpoint.score).getLastD 0 -
            (800 : ℚ)) /
          (((([⟨0, 800⟩, ⟨2, 900⟩, ⟨4, 950⟩] : List Checkpoint).map Checkpoint.hours).getLastD 0 -
            (0 : ℚ)) + 1 / 1000000)) * 2 :=
  eei_fallback_first_last (fun _ _ => none) ⟨0, 800⟩ ⟨2, 900⟩ ⟨4, 950⟩ [] rfl

/-! ## C9 — SAT percentile lookup -/

/-- C9: `get_sat_percentile` fails (models the `LookupError`) exactly
when the SAT score is not an exact key of the percentile table, with no
interpolation; on an exact key it returns the table's integer
percentile divided by 100. -/
theorem get_sat_percentile_exact (sat_table : List (Int × Int)) (s : Int) :
    (get_sat_percentile sat_table s = none ↔ ∀ q ∈ sat_table, q.1 ≠ s) ∧
    ∀ p, dictLookup sat_table s = some p →
      get_sat_percentile sat_table s = some ((p : ℚ) / 100) := by
  constructor
  · have hiff : get_sat_percentile sat_table s = none ↔ dictLookup sat_table s = none := by
      unfold get_sat_percentile
      cases dictLookup sat_table s <;> simp
    rw [hiff, dictLookup, Option.map_eq_none', List.find?_eq_none]
    constructor
    · intro h q hq
      simpa using h q hq
    · intro h q hq
      simpa using h q hq
  · intro p hp
    simp [get_sat_percentile, hp]

/-- C9 witness: exact-key lookup on a concrete one-row table. -/
theorem get_sat_percentile_exact_witness :
    get_sat_percentile [((1400 : Int), (94 : Int))] 1400 = some ((94 : ℚ) / 100) :=
  (get_sat_percentile_exact [((1400 : Int), (94 : Int))] 1400).2 94 rfl

/-! ## C1 — reward model -/

/-- C1: `school_reward` with the default `λ = 0.1` returns `0` when no
admitted name resolves to a catalog entry (in particular on the empty
list); otherwise, with names resolved to the first matching catalog
entry and unresolved names dropped, it returns the maximum desirability
among the resolved entries plus `0.1` times the sum of the
desirabilities of the remaining resolved entries, exactly one
occurrence of the maximum being excluded from that sum. -/
theorem school_reward_correct (admitted : List String) (catalog : List School) :
    school_reward admitted catalog (1 / 10) =
      match resolveAdmitted admitted catalog with
      | [] => 0
      | top :: rest =>
        maxDesire top rest + (1 / 10) * (sumDesire (top :: rest) - maxDesire top rest) := by
  have hperm := List.perm_insertionSort desGE (resolveAdmitted admitted catalog)
  have hsort := List.sorted_insertionSort desGE (resolveAdmitted admitted catalog)
  simp only [school_reward]
  cases hres : resolveAdmitted admitted catalog with
  | nil => rfl
  | cons top rest =>
    rw [hres] at hperm hsort
    cases hs : List.insertionSort desGE (top :: rest) with
    | nil =>
      exfalso
      have hlen := hperm.length_eq
      rw [hs] at hlen
      simp at hlen
    | cons h t =>
      rw [hs] at hperm hsort
      dsimp only
      rw [foldl_reward_eq]
      have hmemh : h ∈ top :: rest := hperm.mem_iff.mp (List.mem_cons_self h t)
      have hall : ∀ x ∈ top :: rest, desire x ≤ desire h := by
        intro x hx
        have hx' : x ∈ h :: t := hperm.mem_iff.mpr hx
        rcases List.mem_cons.mp hx' with rfl | hxt
        · exact le_refl _
        · have hrel := List.rel_of_sorted_cons hsort x hxt
          simp only [desire]
          exact_mod_cast hrel
      have hM : maxDesire top rest = desire h := by
        apply le_antisymm
        · rcases foldl_max_cases (desire top) (rest.map desire) with hc | hc
          · rw [maxDesire, hc]
            exact hall top (List.mem_cons_self _ _)
          · rcases List.mem_map.mp hc with ⟨x, hx, hxe⟩
            rw [maxDesire, ← hxe]
            exact hall x (List.mem_cons_of_mem _ hx)
        · rcases List.mem_cons.mp hmemh with rfl | hrest
          · exact le_foldl_max (desire h) (rest.map desire)
          · exact mem_le_foldl_max (desire top) (rest.map desire) (desire h)
              (List.mem_map_of_mem desire hrest)
      have hS : sumDesire (top :: rest) = desire h + sumDesire t := by
        have hmapped := (hperm.map desire).sum_eq
        simp only [List.map_cons, List.sum_cons] at hmapped
        rw [sumDesire, sumDesire]
        simp only [List.map_cons, List.sum_cons]
        exact hmapped.symm
      rw [hM, hS]
      ring

/-! ## C3 — frame conditions of apply_action -/

/-- C3: `apply_action` returns a catalog deep-equal to its input (the
source deep-copies and never mutates it; the pure model has no
mutation, so non-mutation of the inputs is inherent).  On `STOP` it
returns the student unchanged with `0.0` hours spent.  On a school-name
action it returns `2.0` hours spent and a student that differs from the
input only at that school: the checkpoint
`{hours := priorMaxHours + 2, score := projectedScore history}` is
appended to the school's history, `application_scores[action]` is set
to that same projected score, and every other key and scalar field is
unchanged. -/
theorem apply_action_frame (fit : FitOracle) (student : Student) (schools : List School)
    (action : String) :
    (apply_action fit student schools action).2.1 = schools ∧
    (action = STOP_ACTION → apply_action fit student schools action = (student, schools, 0)) ∧
    (action ≠ STOP_ACTION →
      (apply_action fit student schools action).2.2 = 2 ∧
      (apply_action fit student schools action).1.sat_score = student.sat_score ∧
      (apply_action fit student schools action).1.gpa = student.gpa ∧
      (apply_action fit student schools action).1.gpa_percentile = student.gpa_percentile ∧
      dictGet (apply_action fit student schools action).1.application_score_history action [] =
        dictGet student.application_score_history action [] ++
          [⟨get_total_hours student action + 2,
            expected_essay_improvement fit
              (dictGet student.application_score_history action [])⟩] ∧
      dictLookup (apply_action fit student schools action).1.application_scores action =
        some (expected_essay_improvement fit
          (dictGet student.application_score_history action [])) ∧
      (∀ k, k ≠ action →
        dictGet (apply_action fit student schools action).1.application_score_history k [] =
          dictGet student.application_score_history k []) ∧
      (∀ k, k ≠ action →
        dictLookup (apply_action fit student schools action).1.application_scores k =
          dictLookup student.application_scores k)) := by
  by_cases h : action = STOP_ACTION
  · exact ⟨by simp [apply_action, h], fun _ => by simp [apply_action, h],
      fun hc => absurd h hc⟩
  · refine ⟨by simp [apply_action, h], fun hc => absurd hc h, fun _ => ?_⟩
    refine ⟨by simp [apply_action, h], by simp [apply_action, h], by simp [apply_action, h],
      by simp [apply_action, h], ?_, ?_, ?_, ?_⟩
    · simp [apply_action, h, dictGet, dictLookup_insert_self]
    · simp [apply_action, h, dictLookup_insert_self]
    · intro k hk
      simp [apply_action, h, dictGet, dictLookup_insert_ne _ _ _ _ hk]
    · intro k hk
      simp [apply_action, h, dictLookup_insert_ne _ _ _ _ hk]

/-- C3 witness: a school-name action on a concrete student spends two
hours. -/
theorem apply_action_frame_witness :
    (apply_action (fun _ _ => none) (⟨1550, 4, 99 / 100, [], []⟩ : Student) [] "A").2.2 = 2 :=
  ((apply_action_frame (fun _ _ => none) ⟨1550, 4, 99 / 100, [], []⟩ [] "A").2.2
    (by decide)).1

/-! ## C8 — admission probability non-decreasing in the SAT score -/

theorem dictLookup_mem {κ α : Type} [DecidableEq κ] (d : List (κ × α)) (k : κ) (v : α)
    (h : dictLookup d k = some v) : (k, v) ∈ d := by
  rw [dictLookup] at h
  rcases Option.map_eq_some'.mp h with ⟨kv, hfind, hv⟩
  have hk : kv.1 = k := by simpa using List.find?_some hfind
  have hmem := List.mem_of_find?_eq_some hfind
  cases kv with
  | mk a b =>
    dsimp at hk hv
    subst hk
    subst hv
    exact hmem

theorem get_probability_eval (cdf invCdf : ℚ → ℚ) (colleges : List (String × ℚ))
    (sat_table : List (Int × Int)) (school : String) (s : Int) (gpa essay : ℚ)
    (q rate : ℚ)
    (hs : get_sat_percentile sat_table s = some q)
    (hc : dictLookup colleges school = some rate) :
    get_probability cdf invCdf colleges sat_table school s gpa essay =
      some (1 - cdf ((invCdf (1 - rate / 100) -
        (invCdf (min (1 - 1 / 1000000) (max (1 / 1000000) q)) * (1 / 4) +
         invCdf (min (1 - 1 / 1000000) (max (1 / 1000000) gpa)) * (1 / 4) +
         invCdf (min (1 - 1 / 1000000) (max (1 / 1000000) (get_essay_percentile cdf essay))) *
           (1 / 2))) / (1 / 2))) := by
  rw [get_probability, hs]
  dsimp only
  rw [hc]

/-- C8: with the school, GPA percentile and essay score held fixed,
`get_probability` is non-decreasing in the SAT score, for SAT scores
present in the percentile table.  The normal CDF and inverse CDF of the
external `statistics` library are abstracted as monotone oracle
functions, and the SAT percentile table — a data file that is not part
of the source tree — is assumed monotone (a higher score never maps to
a smaller percentile). -/
theorem get_probability_mono_sat (cdf invCdf : ℚ → ℚ) (colleges : List (String × ℚ))
    (sat_table : List (Int × Int)) (school : String) (gpa_percentile essay_score : ℚ)
    (rate : ℚ) (s₁ s₂ q₁ q₂ : Int)
    (hcdf : Monotone cdf) (hinv : Monotone invCdf)
    (htab : ∀ a ∈ sat_table, ∀ b ∈ sat_table, a.1 ≤ b.1 → a.2 ≤ b.2)
    (hcol : dictLookup colleges school = some rate)
    (h1 : dictLookup sat_table s₁ = some q₁)
    (h2 : dictLookup sat_table s₂ = some q₂)
    (hle : s₁ ≤ s₂) :
    ∃ r₁ r₂,
      get_probability cdf invCdf colleges sat_table school s₁ gpa_percentile essay_score =
        some r₁ ∧
      get_probability cdf invCdf colleges sat_table school s₂ gpa_percentile essay_score =
        some r₂ ∧
      r₁ ≤ r₂ := by
  have hq : (q₁ : ℚ) ≤ (q₂ : ℚ) := by
    exact_mod_cast htab (s₁, q₁) (dictLookup_mem _ _ _ h1) (s₂, q₂) (dictLookup_mem _ _ _ h2)
      hle
  have hs1 : get_sat_percentile sat_table s₁ = some ((q₁ : ℚ) / 100) := by
    simp [get_sat_percentile, h1]
  have hs2 : get_sat_percentile sat_table s₂ = some ((q₂ : ℚ) / 100) := by
    simp [get_sat_percentile, h2]
  refine ⟨_, _,
    get_probability_eval cdf invCdf colleges sat_table school s₁ gpa_percentile essay_score
      _ rate hs1 hcol,
    get_probability_eval cdf invCdf colleges sat_table school s₂ gpa_percentile essay_score
      _ rate hs2 hcol, ?_⟩
  have hq100 : (q₁ : ℚ) / 100 ≤ (q₂ : ℚ) / 100 :=
    (div_le_div_iff_of_pos_right (by norm_num)).mpr hq
  have hclamp : min (1 - 1 / 1000000) (max (1 / 1000000) ((q₁ : ℚ) / 100)) ≤
      min (1 - 1 / 1000000) (max (1 / 1000000) ((q₂ : ℚ) / 100)) :=
    min_le_min (le_refl _) (max_le_max (le_refl _) hq100)
  have hz : invCdf (min (1 - 1 / 1000000) (max (1 / 1000000) ((q₁ : ℚ) / 100))) ≤
      invCdf (min (1 - 1 / 1000000) (max (1 / 1000000) ((q₂ : ℚ) / 100))) := hinv hclamp
  have hzs : invCdf (min (1 - 1 / 1000000) (max (1 / 1000000) ((q₁ : ℚ) / 100))) * (1 / 4) +
        invCdf (min (1 - 1 / 1000000) (max (1 / 1000000) gpa_percentile)) * (1 / 4) +
        invCdf (min (1 - 1 / 1000000)
          (max (1 / 1000000) (get_essay_percentile cdf essay_score))) * (1 / 2) ≤
      invCdf (min (1 - 1 / 1000000) (max (1 / 1000000) ((q₂ : ℚ) / 100))) * (1 / 4) +
        invCdf (min (1 - 1 / 1000000) (max (1 / 1000000) gpa_percentile)) * (1 / 4) +
        invCdf (min (1 - 1 / 1000000)
          (max (1 / 1000000) (get_essay_percentile cdf essay_score))) * (1 / 2) := by
    apply add_le_add_right
    apply add_le_add_right
    exact mul_le_mul_of_nonneg_right hz (by norm_num)
  apply sub_le_sub_left
  apply hcdf
  apply (div_le_div_iff_of_pos_right (by norm_num : (0 : ℚ) < 1 / 2)).mpr
  exact sub_le_sub_left hzs _

/-- C8 witness: concrete monotone CDF oracles (the identity) and a
concrete monotone two-row SAT table. -/
theorem get_probability_mono_sat_witness :
    ∃ r₁ r₂,
      get_probability id id [("X", (50 : ℚ))] [((1000 : Int), (40 : Int)), (1010, 45)] "X"
        1000 (1 / 2) 1000 = some r₁ ∧
      get_probability id id [("X", (50 : ℚ))] [((1000 : Int), (40 : Int)), (1010, 45)] "X"
        1010 (1 / 2) 1000 = some r₂ ∧
      r₁ ≤ r₂ :=
  get_probability_mono_sat id id [("X", (50 : ℚ))] [((1000 : Int), (40 : Int)), (1010, 45)]
    "X" (1 / 2) 1000 50 1000 1010 40 45 monotone_id monotone_id (by decide) rfl rfl rfl
    (by decide)

/-! ## C10 — termination of the rollout loop -/

theorem foldl_max_append (a x : ℚ) (xs : List ℚ) :
    (xs ++ [x]).foldl max a = max (xs.foldl max a) x := by
  rw [List.foldl_append]
  rfl

theorem apply_action_schools (fit : FitOracle) (student : Student) (schools : List School)
    (action : String) : (apply_action fit student schools action).2.1 = schools := by
  by_cases h : action = STOP_ACTION <;> simp [apply_action, h]

theorem apply_action_history (fit : FitOracle) (student : Student) (schools : List School)
    (a : String) (ha : a ≠ STOP_ACTION) :
    (apply_action fit student schools a).1.application_score_history =
      dictInsert student.application_score_history a
        (dictGet student.application_score_history a [] ++
          [⟨get_total_hours student a + 2,
            expected_essay_improvement fit (dictGet student.application_score_history a [])⟩]) := by
  simp [apply_action, ha]

theorem maxHours_append (l : List Checkpoint) (c : Checkpoint) :
    (match l ++ [c] with
     | [] => (0 : ℚ)
     | p :: ps => (ps.map Checkpoint.hours).foldl max p.hours) =
    (match l with
     | [] => c.hours
     | p :: ps => max ((ps.map Checkpoint.hours).foldl max p.hours) c.hours) := by
  cases l with
  | nil => rfl
  | cons p ps =>
    show ((ps ++ [c]).map Checkpoint.hours).foldl max p.hours = _
    rw [List.map_append, List.map_cons, List.map_nil, foldl_max_append]

theorem get_total_hours_apply_self (fit : FitOracle) (student : Student)
    (schools : List School) (a : String) (ha : a ≠ STOP_ACTION) :
    get_total_hours (apply_action fit student schools a).1 a =
      get_total_hours student a + 2 := by
  have hhist : dictGet (apply_action fit student schools a).1.application_score_history a [] =
      dictGet student.application_score_history a [] ++
        [⟨get_total_hours student a + 2,
          expected_essay_improvement fit (dictGet student.application_score_history a [])⟩] := by
    rw [apply_action_history fit student schools a ha, dictGet, dictLookup_insert_self]
    rfl
  rw [show get_total_hours (apply_action fit student schools a).1 a =
      (match dictGet (apply_action fit student schools a).1.application_score_history a [] with
       | [] => (0 : ℚ)
       | p :: ps => (ps.map Checkpoint.hours).foldl max p.hours) from rfl, hhist,
    maxHours_append]
  cases hold : dictGet student.application_score_history a [] with
  | nil => rfl
  | cons p ps =>
    have hM : get_total_hours student a = (ps.map Checkpoint.hours).foldl max p.hours := by
      rw [show get_total_hours student a =
        (match dictGet student.application_score_history a [] with
         | [] => (0 : ℚ)
         | p :: ps => (ps.map Checkpoint.hours).foldl max p.hours) from rfl, hold]
    dsimp only
    rw [← hM]
    exact max_eq_right (by linarith)

theorem get_total_hours_apply_other (fit : FitOracle) (student : Student)
    (schools : List School) (a b : String) (hb : b ≠ a) :
    get_total_hours (apply_action fit student schools a).1 b = get_total_hours student b := by
  by_cases ha : a = STOP_ACTION
  · simp [apply_action, ha]
  · rw [show get_total_hours (apply_action fit student schools a).1 b =
      (match dictGet (apply_action fit student schools a).1.application_score_history b [] with
       | [] => (0 : ℚ)
       | p :: ps => (ps.map Checkpoint.hours).foldl max p.hours) from rfl,
      apply_action_history fit student schools a ha, dictGet,
      dictLookup_insert_ne _ _ _ _ hb]
    rfl

theorem mem_dictInsert {κ α : Type} [DecidableEq κ] (d : List (κ × α)) (k : κ) (v : α)
    (kv : κ × α) (h : kv ∈ dictInsert d k v) : kv ∈ d ∨ kv = (k, v) := by
  induction d with
  | nil =>
    rw [dictInsert] at h
    rcases List.mem_singleton.mp h with rfl
    right
    rfl
  | cons x xs ih =>
    rw [dictInsert] at h
    by_cases hx : x.1 = k
    · rw [if_pos hx] at h
      rcases List.mem_cons.mp h with rfl | h'
      · right; rfl
      · left; exact List.mem_cons_of_mem _ h'
    · rw [if_neg hx] at h
      rcases List.mem_cons.mp h with rfl | h'
      · left; exact List.mem_cons_self _ _
      · rcases ih h' with h'' | h''
        · left; exact List.mem_cons_of_mem _ h''
        · right; exact h''

theorem hours_nonneg_of_mem_get (student : Student) (nm : String)
    (hpre : ∀ kv ∈ student.application_score_history, ∀ cp ∈ kv.2, 0 ≤ cp.hours)
    (cp : Checkpoint) (hcp : cp ∈ dictGet student.application_score_history nm []) :
    0 ≤ cp.hours := by
  rw [dictGet] at hcp
  cases hl : dictLookup student.application_score_history nm with
  | none =>
    rw [hl] at hcp
    simp at hcp
  | some l =>
    rw [hl] at hcp
    exact hpre (nm, l) (dictLookup_mem _ _ _ hl) cp hcp

theorem get_total_hours_nonneg (student : Student) (nm : String)
    (hpre : ∀ kv ∈ student.application_score_history, ∀ cp ∈ kv.2, 0 ≤ cp.hours) :
    0 ≤ get_total_hours student nm := by
  rw [show get_total_hours student nm =
    (match dictGet student.application_score_history nm [] with
     | [] => (0 : ℚ)
     | p :: ps => (ps.map Checkpoint.hours).foldl max p.hours) from rfl]
  cases hold : dictGet student.application_score_history nm [] with
  | nil => exact le_refl 0
  | cons p ps =>
    have h0 : 0 ≤ p.hours :=
      hours_nonneg_of_mem_get student nm hpre p (by rw [hold]; exact List.mem_cons_self _ _)
    exact le_trans h0 (le_foldl_max _ _)

theorem precondition_apply (fit : FitOracle) (student : Student) (schools : List School)
    (a : String)
    (hpre : ∀ kv ∈ student.application_score_history, ∀ cp ∈ kv.2, 0 ≤ cp.hours) :
    ∀ kv ∈ (apply_action fit student schools a).1.application_score_history,
      ∀ cp ∈ kv.2, 0 ≤ cp.hours := by
  by_cases ha : a = STOP_ACTION
  · simpa [apply_action, ha] using hpre
  · intro kv hkv cp hcp
    rw [apply_action_history fit student schools a ha] at hkv
    rcases mem_dictInsert _ _ _ _ hkv with h | h
    · exact hpre kv h cp hcp
    · rw [h] at hcp
      rcases List.mem_append.mp hcp with hc | hc
      · exact hours_nonneg_of_mem_get student a hpre cp hc
      · rcases List.mem_singleton.mp hc with rfl
        have := get_total_hours_nonneg student a hpre
        show 0 ≤ get_total_hours student a + 2
        linarith

theorem exists_school_of_available (student : Student) (schools : List School) (a : String)
    (ha : a ∈ available_actions student schools) (hne : a ≠ STOP_ACTION) :
    ∃ sc ∈ schools, sc.applying = true ∧
      get_total_hours student sc.name < MAX_HOURS_PER_SCHOOL ∧ sc.name = a := by
  rw [available_actions] at ha
  rcases List.mem_append.mp ha with h | h
  · rcases List.mem_filterMap.mp h with ⟨sc, hsc, hif⟩
    by_cases hc : sc.applying = true ∧ get_total_hours student sc.name < MAX_HOURS_PER_SCHOOL
    · rw [if_pos hc] at hif
      exact ⟨sc, hsc, hc.1, hc.2, Option.some.inj hif⟩
    · rw [if_neg hc] at hif
      cases hif
  · rcases List.mem_singleton.mp h with rfl
    exact absurd rfl hne

theorem countP_lt_of_mem {α : Type} (l : List α) (p q : α → Bool)
    (hmono : ∀ x ∈ l, q x = true → p x = true) (x : α) (hx : x ∈ l)
    (hpx : p x = true) (hqx : q x = false) : l.countP q < l.countP p := by
  induction l with
  | nil => cases hx
  | cons y ys ih =>
    have hmono' : ∀ z ∈ ys, q z = true → p z = true :=
      fun z hz => hmono z (List.mem_cons_of_mem _ hz)
    rcases List.mem_cons.mp hx with rfl | hx'
    · rw [List.countP_cons_of_pos p _ hpx, List.countP_cons_of_neg q _ (by simp [hqx])]
      exact Nat.lt_succ_of_le (List.countP_mono_left hmono')
    · have hlt := ih hmono' hx'
      rcases hq : q y with _ | _
      · rw [List.countP_cons_of_neg q _ (by simp [hq]), List.countP_cons]
        omega
      · rw [List.countP_cons_of_pos q _ hq,
          List.countP_cons_of_pos p _ (hmono y (List.mem_cons_self _ _) hq)]
        omega

theorem rolloutLoop_isSome_of_lt (fit : FitOracle) (coin : Nat → Bool) (pick : Nat → Nat) :
    ∀ (fuel k : Nat) (student : Student) (schools : List School) (hours : ℚ),
    (∀ kv ∈ student.application_score_history, ∀ cp ∈ kv.2, 0 ≤ cp.hours) →
    schools.countP (fun sc => decide (sc.applying = true ∧
      get_total_hours student sc.name < MAX_HOURS_PER_SCHOOL)) < fuel →
    (rolloutLoop fit coin pick fuel k student schools hours).isSome = true := by
  intro fuel
  induction fuel with
  | zero =>
    intro k student schools hours _ hcnt
    exact absurd hcnt (Nat.not_lt_zero _)
  | succ fuel ih =>
    intro k student schools hours hpre hcnt
    have key : ∀ A : String, A ∈ (available_actions student schools).filter
        (fun x => decide (x ≠ STOP_ACTION)) →
        (rolloutLoop fit coin pick fuel (k + 1) (apply_action fit student schools A).1
          (apply_action fit student schools A).2.1
          (hours + (apply_action fit student schools A).2.2)).isSome = true := by
      intro A hA
      have hAf := List.mem_filter.mp hA
      have hAav : A ∈ available_actions student schools := hAf.1
      have hAne : A ≠ STOP_ACTION := by simpa using hAf.2
      rw [apply_action_schools]
      apply ih (k + 1) _ schools _ (precondition_apply fit student schools A hpre)
      rcases exists_school_of_available student schools A hAav hAne with
        ⟨w, hw, happ, hlt, hname⟩
      have hmono : ∀ sc ∈ schools,
          (fun sc => decide (sc.applying = true ∧
            get_total_hours (apply_action fit student schools A).1 sc.name <
              MAX_HOURS_PER_SCHOOL)) sc = true →
          (fun sc => decide (sc.applying = true ∧
            get_total_hours student sc.name < MAX_HOURS_PER_SCHOOL)) sc = true := by
        intro sc _ hq
        rcases of_decide_eq_true hq with ⟨happ2, hlt2⟩
        apply decide_eq_true
        by_cases hn : sc.name = A
        · exfalso
          rw [hn, get_total_hours_apply_self fit student schools A hAne] at hlt2
          have hnn := get_total_hours_nonneg student A hpre
          rw [MAX_HOURS_PER_SCHOOL] at hlt2
          linarith
        · rw [get_total_hours_apply_other fit student schools A sc.name hn] at hlt2
          exact ⟨happ2, hlt2⟩
      have hp : (fun sc => decide (sc.applying = true ∧
          get_total_hours student sc.name < MAX_HOURS_PER_SCHOOL)) w = true :=
        decide_eq_true ⟨happ, hlt⟩
      have hq : (fun sc => decide (sc.applying = true ∧
          get_total_hours (apply_action fit student schools A).1 sc.name <
            MAX_HOURS_PER_SCHOOL)) w = false := by
        apply decide_eq_false
        intro hcontra
        rcases hcontra with ⟨_, hlt2⟩
        rw [hname, get_total_hours_apply_self fit student schools A hAne] at hlt2
        have hnn := get_total_hours_nonneg student A hpre
        rw [MAX_HOURS_PER_SCHOOL] at hlt2
        linarith
      have hdec := countP_lt_of_mem schools _ _ hmono w hw hp hq
      omega
    simp only [rolloutLoop]
    split
    · rfl
    · split
      · rfl
      · split
        · rfl
        · exact key _ (List.get_mem _ _ _)

/-- C10: each applied non-STOP action raises the chosen school's
cumulative `max` hours by exactly `2.0`; hence, when every recorded
checkpoint has non-negative hours, an applying school can be chosen at
most once before it drops out of `available_actions`, and the rollout
loop stops within one non-STOP step per applying school in the catalog:
fuel `count(applying) + 1` always suffices. -/
theorem rollout_terminates (fit : FitOracle) (coin : Nat → Bool) (pick : Nat → Nat)
    (k : Nat) (student : Student) (schools : List School) (hours : ℚ)
    (hpre : ∀ kv ∈ student.application_score_history, ∀ cp ∈ kv.2, 0 ≤ cp.hours) :
    (∀ (s : Student) (sc : List School) (a : String), a ≠ STOP_ACTION →
      get_total_hours (apply_action fit s sc a).1 a = get_total_hours s a + 2) ∧
    (rolloutLoop fit coin pick (schools.countP (fun sc => decide (sc.applying = true)) + 1)
      k student schools hours).isSome = true := by
  refine ⟨fun s sc a ha => get_total_hours_apply_self fit s sc a ha, ?_⟩
  apply rolloutLoop_isSome_of_lt fit coin pick _ k student schools hours hpre
  have hle : schools.countP (fun sc => decide (sc.applying = true ∧
      get_total_hours student sc.name < MAX_HOURS_PER_SCHOOL)) ≤
      schools.countP (fun sc => decide (sc.applying = true)) := by
    apply List.countP_mono_left
    intro x _ h
    rcases of_decide_eq_true h with ⟨ha, _⟩
    exact decide_eq_true ha
  omega

/-- C10 witness: the rollout loop on a concrete one-school state stops
within the claimed fuel. -/
theorem rollout_terminates_witness :
    (rolloutLoop (fun _ _ => none) (fun _ => false) (fun _ => 0)
      (([⟨"A", 5, [], true, 100⟩] : List School).countP
        (fun sc => decide (sc.applying = true)) + 1)
      0 (⟨1550, 4, 99 / 100, [], []⟩ : Student) [⟨"A", 5, [], true, 100⟩] 0).isSome = true :=
  (rollout_terminates (fun _ _ => none) (fun _ => false) (fun _ => 0) 0
    ⟨1550, 4, 99 / 100, [], []⟩ [⟨"A", 5, [], true, 100⟩] 0 (by simp)).2

/-! ## MCTS tree helper lemmas (towards C2, C6, C7) -/

theorem MCTSNode.incr_children (t : MCTSNode) (r : ℚ) : (t.incr r).children = t.children := by
  cases t
  rfl

theorem MCTSNode.incr_visits (t : MCTSNode) (r : ℚ) : (t.incr r).visits = t.visits + 1 := by
  cases t
  rfl

theorem MCTSNode.incr_action (t : MCTSNode) (r : ℚ) : (t.incr r).action = t.action := by
  cases t
  rfl

theorem MCTSNode.incr_untried (t : MCTSNode) (r : ℚ) :
    (t.incr r).untried_actions = t.untried_actions := by
  cases t
  rfl

theorem MCTSNode.incr_student (t : MCTSNode) (r : ℚ) : (t.incr r).student = t.student := by
  cases t
  rfl

theorem MCTSNode.incr_schools (t : MCTSNode) (r : ℚ) :
    (t.incr r).schools_data = t.schools_data := by
  cases t
  rfl

theorem MCTSNode.setChild_children (t : MCTSNode) (i : Nat) (c : MCTSNode) :
    (t.setChild i c).children = t.children.set i c := by
  cases t
  rfl

theorem MCTSNode.setChild_visits (t : MCTSNode) (i : Nat) (c : MCTSNode) :
    (t.setChild i c).visits = t.visits := by
  cases t
  rfl

theorem MCTSNode.setChild_action (t : MCTSNode) (i : Nat) (c : MCTSNode) :
    (t.setChild i c).action = t.action := by
  cases t
  rfl

theorem MCTSNode.setChild_untried (t : MCTSNode) (i : Nat) (c : MCTSNode) :
    (t.setChild i c).untried_actions = t.untried_actions := by
  cases t
  rfl

theorem MCTSNode.setChild_student (t : MCTSNode) (i : Nat) (c : MCTSNode) :
    (t.setChild i c).student = t.student := by
  cases t
  rfl

theorem MCTSNode.setChild_schools (t : MCTSNode) (i : Nat) (c : MCTSNode) :
    (t.setChild i c).schools_data = t.schools_data := by
  cases t
  rfl

theorem nilExtends (p : List Nat) : ([] : List Nat) <+: p :=
  ⟨p, rfl⟩

theorem extendsNil_iff (q : List Nat) : q <+: [] ↔ q = [] := by
  constructor
  · rintro ⟨t, ht⟩
    exact (List.append_eq_nil.mp ht).1
  · rintro rfl
    exact ⟨[], rfl⟩

theorem consExtends_cons (a b : Nat) (l₁ l₂ : List Nat) :
    (a :: l₁) <+: (b :: l₂) ↔ a = b ∧ l₁ <+: l₂ := by
  constructor
  · rintro ⟨t, ht⟩
    rw [List.cons_append] at ht
    injection ht with h1 h2
    exact ⟨h1, t, h2⟩
  · rintro ⟨rfl, t, ht⟩
    exact ⟨t, by rw [List.cons_append, ht]⟩

theorem visitsAt_nil (t : MCTSNode) : visitsAt t [] = some t.visits :=
  rfl

theorem visitsAt_cons (t : MCTSNode) (j : Nat) (q : List Nat) :
    visitsAt t (j :: q) =
      match t.children[j]? with
      | none => none
      | some c => visitsAt c q := by
  rw [visitsAt, followPath]
  cases t.children[j]? <;> rfl

theorem expandHere_spec (fit : FitOracle) (t : MCTSNode) (h : ¬ t.fullyExpanded) :
    ∃ child : MCTSNode, child.visits = 0 ∧ child.children = [] ∧
      (∃ a ∈ t.untried_actions, child.action = some a) ∧
      (t.expandHere fit).children = t.children ++ [child] ∧
      (t.expandHere fit).untried_actions = t.untried_actions.dropLast ∧
      (t.expandHere fit).visits = t.visits ∧
      (t.expandHere fit).action = t.action ∧
      (t.expandHere fit).student = t.student ∧
      (t.expandHere fit).schools_data = t.schools_data := by
  cases t with
  | mk s sc hh a u v r c =>
    have hu : u ≠ [] := h
    cases hl : u.getLast? with
    | none => exact absurd (List.getLast?_eq_none_iff.mp hl) hu
    | some act =>
      have hred : MCTSNode.expandHere fit (.mk s sc hh a u v r c) =
          .mk s sc hh a u.dropLast v r (c ++ [mkNode (apply_action fit s sc act).1
            (apply_action fit s sc act).2.1 (hh + (apply_action fit s sc act).2.2)
            (some act)]) := by
        rw [MCTSNode.expandHere, hl]
      refine ⟨mkNode (apply_action fit s sc act).1 (apply_action fit s sc act).2.1
        (hh + (apply_action fit s sc act).2.2) (some act), rfl, rfl,
        ⟨act, List.mem_of_getLast?_eq_some hl, rfl⟩, ?_, ?_, ?_, ?_, ?_, ?_⟩ <;>
        rw [hred] <;> rfl

theorem visitsAt_incr (t : MCTSNode) (r : ℚ) (q : List Nat) :
    visitsAt (t.incr r) q =
      (visitsAt t q).map (fun v => if q = [] then v + 1 else v) := by
  cases q with
  | nil =>
    rw [visitsAt_nil, visitsAt_nil, MCTSNode.incr_visits]
    simp
  | cons j q' =>
    rw [visitsAt_cons, visitsAt_cons, MCTSNode.incr_children]
    cases t.children[j]? with
    | none => simp
    | some c =>
      simp only [Option.map]
      cases visitsAt c q' <;> simp

theorem visitsAt_backprop (r : ℚ) :
    ∀ (p q : List Nat) (t : MCTSNode),
    visitsAt (backpropPath r p t) q =
      (visitsAt t q).map (fun v => if q <+: p then v + 1 else v) := by
  intro p
  induction p with
  | nil =>
    intro q t
    rw [show backpropPath r [] t = t.incr r from rfl, visitsAt_incr]
    cases hv : visitsAt t q with
    | none => rfl
    | some v =>
      have : (q <+: ([] : List Nat)) ↔ q = [] := extendsNil_iff q
      by_cases hq : q = []
      · simp [hq]
      · simp [hq, this]
  | cons i p' ih =>
    intro q t
    rw [show backpropPath r (i :: p') t =
        (match t.children[i]? with
         | none => t.incr r
         | some c => (t.incr r).setChild i (backpropPath r p' c)) from rfl]
    cases hc : t.children[i]? with
    | none =>
      cases q with
      | nil =>
        rw [visitsAt_nil, visitsAt_nil, MCTSNode.incr_visits]
        simp [nilExtends]
      | cons j q' =>
        rw [visitsAt_cons, visitsAt_cons, MCTSNode.incr_children]
        by_cases hj : j = i
        · subst hj
          rw [hc]
          rfl
        · have hpre : ¬ ((j :: q') <+: (i :: p')) := fun hp =>
            hj ((consExtends_cons j i q' p').mp hp).1
          cases t.children[j]? with
          | none => rfl
          | some c =>
            simp only [Option.map]
            cases visitsAt c q' <;> simp [hpre]
    | some c =>
      cases q with
      | nil =>
        rw [visitsAt_nil, visitsAt_nil, MCTSNode.setChild_visits, MCTSNode.incr_visits]
        simp [nilExtends]
      | cons j q' =>
        rw [visitsAt_cons, visitsAt_cons, MCTSNode.setChild_children, MCTSNode.incr_children]
        by_cases hj : j = i
        · subst hj
          have hlen : j < t.children.length := by
            rcases List.getElem?_eq_some_iff.mp hc with ⟨hlt, _⟩
            exact hlt
          rw [List.getElem?_set_self (by simpa using hlen), hc]
          dsimp only
          rw [ih]
          have hiff : ((j :: q') <+: (j :: p')) ↔ q' <+: p' := by
            rw [consExtends_cons]
            simp
          cases visitsAt c q' with
          | none => rfl
          | some v => by_cases hq : q' <+: p' <;> simp [hq, hiff]
        · rw [List.getElem?_set_ne (fun hh => hj hh.symm)]
          have hpre : ¬ ((j :: q') <+: (i :: p')) := fun hp =>
            hj ((consExtends_cons j i q' p').mp hp).1
          cases t.children[j]? with
          | none => rfl
          | some c2 =>
            simp only [Option.map]
            cases visitsAt c2 q' <;> simp [hpre]

theorem MCTSNode.size_pos (t : MCTSNode) : 1 ≤ t.size := by
  cases t with
  | mk s sc hh a u v r c =>
    show 1 ≤ sizeNodes c + 1
    omega

theorem size_le_sizeNodes (c : MCTSNode) : ∀ (l : List MCTSNode), c ∈ l → c.size ≤ sizeNodes l := by
  intro l
  induction l with
  | nil => intro h; cases h
  | cons x xs ih =>
    intro h
    rw [sizeNodes]
    rcases List.mem_cons.mp h with rfl | h'
    · exact Nat.le_add_right _ _
    · exact le_trans (ih h') (Nat.le_add_left _ _)

theorem size_child_lt (t c : MCTSNode) (h : c ∈ t.children) : c.size < t.size := by
  cases t with
  | mk s sc hh a u v r ch =>
    have hle : c.size ≤ sizeNodes ch := size_le_sizeNodes c ch h
    show c.size < sizeNodes ch + 1
    omega

theorem mctsIterGo_succ_sel (fit : FitOracle) (sel : MCTSNode → Nat) (r : ℚ) (fuel : Nat)
    (t : MCTSNode) (h : ¬ t.isTerminal ∧ t.fullyExpanded ∧ 0 < t.children.length)
    (hi : min (sel t) (t.children.length - 1) < t.children.length) :
    mctsIterGo fit sel r (fuel + 1) t =
      ((t.incr r).setChild (min (sel t) (t.children.length - 1))
        (mctsIterGo fit sel r fuel
          (t.children.get ⟨min (sel t) (t.children.length - 1), hi⟩)).1,
       min (sel t) (t.children.length - 1) ::
        (mctsIterGo fit sel r fuel
          (t.children.get ⟨min (sel t) (t.children.length - 1), hi⟩)).2) := by
  rw [mctsIterGo, dif_pos h]

theorem mctsIterGo_succ_expand (fit : FitOracle) (sel : MCTSNode → Nat) (r : ℚ) (fuel : Nat)
    (t : MCTSNode) (h1 : ¬ (¬ t.isTerminal ∧ t.fullyExpanded ∧ 0 < t.children.length))
    (h2 : ¬ t.isTerminal ∧ ¬ t.fullyExpanded) :
    mctsIterGo fit sel r (fuel + 1) t =
      (backpropPath r [t.children.length] (t.expandHere fit), [t.children.length]) := by
  rw [mctsIterGo, dif_neg h1, if_pos h2]

theorem mctsIterGo_succ_term (fit : FitOracle) (sel : MCTSNode → Nat) (r : ℚ) (fuel : Nat)
    (t : MCTSNode) (h1 : ¬ (¬ t.isTerminal ∧ t.fullyExpanded ∧ 0 < t.children.length))
    (h2 : ¬ (¬ t.isTerminal ∧ ¬ t.fullyExpanded)) :
    mctsIterGo fit sel r (fuel + 1) t = (t.incr r, []) := by
  rw [mctsIterGo, dif_neg h1, if_neg h2]

theorem visitsAt_expandHere (fit : FitOracle) (t : MCTSNode) (h : ¬ t.fullyExpanded)
    (q : List Nat) :
    visitsAt (t.expandHere fit) q =
      if q = [t.children.length] then some 0 else visitsAt t q := by
  rcases expandHere_spec fit t h with ⟨child, hv0, hch0, -, hch, -, hvis, -, -, -⟩
  cases q with
  | nil =>
    rw [visitsAt_nil, visitsAt_nil, hvis]
    simp
  | cons j q' =>
    rw [visitsAt_cons, visitsAt_cons, hch]
    by_cases hj : j < t.children.length
    · rw [List.getElem?_append_left hj, if_neg (by intro hh; injection hh with h1 _; omega)]
    · by_cases hj2 : j = t.children.length
      · subst hj2
        rw [List.getElem?_concat_length]
        cases q' with
        | nil =>
          rw [if_pos rfl]
          dsimp only
          rw [visitsAt_nil, hv0]
        | cons j2 q2 =>
          rw [if_neg (by intro hh; injection hh with _ hx; exact List.cons_ne_nil _ _ hx)]
          rw [List.getElem?_len_le (le_refl _)]
          dsimp only
          rw [visitsAt_cons, hch0]
          rfl
      · have hgt : t.children.length + 1 ≤ j := by omega
        rw [List.getElem?_len_le (by rw [List.length_append]; simpa using hgt),
          if_neg (by intro hh; injection hh with h1 _; omega),
          List.getElem?_len_le (by omega)]

theorem expandStep_visits (fit : FitOracle) (r : ℚ) (t : MCTSNode) (h : ¬ t.fullyExpanded)
    (q : List Nat) :
    visitsAt (backpropPath r [t.children.length] (t.expandHere fit)) q =
      if q = [t.children.length] ∧ visitsAt t q = none then some 1
      else (visitsAt t q).map (fun v => if q <+: [t.children.length] then v + 1 else v) := by
  rw [visitsAt_backprop, visitsAt_expandHere fit t h]
  by_cases hq : q = [t.children.length]
  · subst hq
    have hnone : visitsAt t [t.children.length] = none := by
      rw [visitsAt_cons, List.getElem?_len_le (le_refl _)]
    rw [if_pos rfl, if_pos ⟨rfl, hnone⟩]
    have hself : [t.children.length] <+: [t.children.length] := ⟨[], List.append_nil _⟩
    simp [hself]
  · rw [if_neg hq, if_neg (fun hcon => hq hcon.1)]

theorem mctsIterGo_visits (fit : FitOracle) (sel : MCTSNode → Nat) (r : ℚ) :
    ∀ (fuel : Nat) (t : MCTSNode), t.size ≤ fuel → ∀ q,
    visitsAt (mctsIterGo fit sel r fuel t).1 q =
      if q = (mctsIterGo fit sel r fuel t).2 ∧ visitsAt t q = none then some 1
      else (visitsAt t q).map
        (fun v => if q <+: (mctsIterGo fit sel r fuel t).2 then v + 1 else v) := by
  intro fuel
  induction fuel with
  | zero =>
    intro t hsz
    have := t.size_pos
    omega
  | succ fuel ih =>
    intro t hsz q
    by_cases h1 : ¬ t.isTerminal ∧ t.fullyExpanded ∧ 0 < t.children.length
    · have hi : min (sel t) (t.children.length - 1) < t.children.length :=
        Nat.lt_of_le_of_lt (Nat.min_le_right _ _) (Nat.sub_lt h1.2.2 one_pos)
      rw [mctsIterGo_succ_sel fit sel r fuel t h1 hi]
      set i := min (sel t) (t.children.length - 1) with hidef
      set c := t.children.get ⟨i, hi⟩ with hcdef
      have hsz' : c.size ≤ fuel := by
        have := size_child_lt t c (hcdef ▸ List.get_mem _ _ _)
        omega
      have hci : t.children[i]? = some c := by
        rw [List.getElem?_eq_getElem hi]
        rfl
      cases q with
      | nil =>
        rw [if_neg (fun hcon => List.noConfusion hcon.1)]
        rw [visitsAt_nil, visitsAt_nil, MCTSNode.setChild_visits, MCTSNode.incr_visits]
        simp [nilExtends]
      | cons j q' =>
        by_cases hj : j = i
        · subst hj
          rw [visitsAt_cons, MCTSNode.setChild_children, MCTSNode.incr_children,
            List.getElem?_set_self hi]
          dsimp only
          rw [ih c hsz' q']
          rw [visitsAt_cons, hci]
          dsimp only
          simp only [List.cons.injEq, consExtends_cons, true_and]
        · rw [if_neg (by intro hcon; injection hcon.1 with hh _; exact hj hh)]
          rw [visitsAt_cons, visitsAt_cons, MCTSNode.setChild_children,
            MCTSNode.incr_children, List.getElem?_set_ne (fun hh => hj hh.symm)]
          have hpre : ¬ ((j :: q') <+: i :: (mctsIterGo fit sel r fuel c).2) :=
            fun hp => hj ((consExtends_cons _ _ _ _).mp hp).1
          cases t.children[j]? with
          | none => rfl
          | some c2 =>
            dsimp only
            cases visitsAt c2 q' <;> simp [hpre]
    · by_cases h2 : ¬ t.isTerminal ∧ ¬ t.fullyExpanded
      · rw [mctsIterGo_succ_expand fit sel r fuel t h1 h2]
        exact expandStep_visits fit r t h2.2 q
      · rw [mctsIterGo_succ_term fit sel r fuel t h1 h2]
        dsimp only
        rw [visitsAt_incr]
        by_cases hq : q = []
        · subst hq
          rw [if_neg (fun hcon => by
            rw [visitsAt_nil] at hcon
            exact Option.noConfusion hcon.2)]
          rw [visitsAt_nil]
          simp [extendsNil_iff]
        · rw [if_neg (fun hcon => hq hcon.1)]
          have hnp : ¬ (q <+: ([] : List Nat)) := fun hp => hq ((extendsNil_iff q).mp hp)
          cases visitsAt t q <;> simp [hq, hnp]

theorem mctsIter_visits (fit : FitOracle) (sel : MCTSNode → Nat) (r : ℚ) (t : MCTSNode)
    (q : List Nat) :
    visitsAt (mctsIter fit sel r t).1 q =
      if q = (mctsIter fit sel r t).2 ∧ visitsAt t q = none then some 1
      else (visitsAt t q).map
        (fun v => if q <+: (mctsIter fit sel r t).2 then v + 1 else v) :=
  mctsIterGo_visits fit sel r t.size t (le_refl _) q

theorem extendsTrans (p1 p2 p3 : List Nat) (h1 : p1 <+: p2) (h2 : p2 <+: p3) : p1 <+: p3 := by
  rcases h1 with ⟨t1, ht1⟩
  rcases h2 with ⟨t2, ht2⟩
  exact ⟨t1 ++ t2, by rw [← List.append_assoc, ht1, ht2]⟩

theorem visitsAt_isSome_of_extends (q p : List Nat) :
    ∀ (t : MCTSNode), q <+: p → (visitsAt t p).isSome = true →
    (visitsAt t q).isSome = true := by
  induction q generalizing p with
  | nil =>
    intro t _ _
    rw [visitsAt_nil]
    rfl
  | cons j q' ih =>
    intro t hqp hp
    rcases hqp with ⟨s, hs⟩
    rw [List.cons_append] at hs
    subst hs
    rw [visitsAt_cons] at hp ⊢
    cases hc : t.children[j]? with
    | none => rw [hc] at hp; exact absurd hp (by simp)
    | some c =>
      rw [hc] at hp
      exact ih (q' ++ s) c ⟨s, rfl⟩ hp

theorem validPath_iff (t : MCTSNode) (p : List Nat) :
    validPath t p ↔ (visitsAt t p).isSome = true := by
  rw [validPath, visitsAt]
  cases followPath p t <;> simp

theorem visitsAt_eq_some_iff (t : MCTSNode) (q : List Nat) (v : Nat) :
    visitsAt t q = some v ↔ ∃ n, followPath q t = some n ∧ n.visits = v := by
  rw [visitsAt]
  cases followPath q t <;> simp

theorem traceCounts_of_step (t t' : MCTSNode) (pn : List Nat) (trace : List (List Nat))
    (hstep : ∀ q, visitsAt t' q =
      if q = pn ∧ visitsAt t q = none then some 1
      else (visitsAt t q).map (fun v => if q <+: pn then v + 1 else v))
    (h : TraceCounts t trace) : TraceCounts t' (trace ++ [pn]) := by
  have hcount_new : ∀ q : List Nat,
      (trace ++ [pn]).countP (fun p => decide (q <+: p)) =
        trace.countP (fun p => decide (q <+: p)) + if q <+: pn then 1 else 0 := by
    intro q
    rw [List.countP_append, List.countP_cons, List.countP_nil]
    by_cases hq : q <+: pn <;> simp [hq]
  constructor
  · intro p hp
    rcases List.mem_append.mp hp with hp | hp
    · have hv : (visitsAt t p).isSome = true := (validPath_iff t p).mp (h.1 p hp)
      rw [validPath_iff, hstep p]
      by_cases hcon : p = pn ∧ visitsAt t p = none
      · rw [if_pos hcon]; rfl
      · rw [if_neg hcon]
        cases hvv : visitsAt t p with
        | none => rw [hvv] at hv; exact absurd hv (by simp)
        | some v => rfl
    · have hppn : p = pn := List.mem_singleton.mp hp
      rw [validPath_iff, hstep p]
      by_cases hcon : p = pn ∧ visitsAt t p = none
      · rw [if_pos hcon]; rfl
      · rw [if_neg hcon]
        cases hvv : visitsAt t p with
        | none => exact absurd ⟨hppn, hvv⟩ hcon
        | some v => rfl
  · intro q n hn
    have hv' : visitsAt t' q = some n.visits := by
      rw [visitsAt, hn]
      rfl
    rw [hstep q] at hv'
    by_cases hcon : q = pn ∧ visitsAt t q = none
    · rw [if_pos hcon] at hv'
      injection hv' with hv1
      rcases hcon with ⟨rfl, hnone⟩
      have hzero : trace.countP (fun p => decide (q <+: p)) = 0 := by
        rw [List.countP_eq_zero]
        intro p hp hcontra
        have hqp : q <+: p := of_decide_eq_true hcontra
        have hps : (visitsAt t p).isSome = true := (validPath_iff t p).mp (h.1 p hp)
        have := visitsAt_isSome_of_extends q p t hqp hps
        rw [hnone] at this
        exact absurd this (by simp)
      rw [hcount_new q, hzero, if_pos ⟨[], List.append_nil q⟩, ← hv1]
    · rw [if_neg hcon] at hv'
      rcases Option.map_eq_some'.mp hv' with ⟨v0, hv0, hfv⟩
      rcases (visitsAt_eq_some_iff t q v0).mp hv0 with ⟨n0, hn0, hn0v⟩
      have hc0 : v0 = trace.countP (fun p => decide (q <+: p)) := hn0v ▸ h.2 q n0 hn0
      rw [hcount_new q, ← hc0, ← hfv]
      by_cases hqpn : q <+: pn <;> simp [hqpn]

theorem phase1Go_traceCounts (fit : FitOracle) (rewards : Nat → ℚ) (timeUp : Nat → Bool) :
    ∀ (fuel k : Nat) (t : MCTSNode) (trace : List (List Nat)), TraceCounts t trace →
    TraceCounts (phase1Go fit rewards timeUp fuel k t trace).1
      (phase1Go fit rewards timeUp fuel k t trace).2.1 := by
  intro fuel
  induction fuel with
  | zero =>
    intro k t trace h
    exact h
  | succ fuel ih =>
    intro k t trace h
    rw [phase1Go]
    by_cases hfe : t.fullyExpanded
    · rw [if_pos hfe]
      exact h
    · rw [if_neg hfe]
      have hstep := traceCounts_of_step t
        (backpropPath (rewards k) [t.children.length] (t.expandHere fit))
        [t.children.length] trace (expandStep_visits fit (rewards k) t hfe) h
      by_cases ht : timeUp (k + 1) = true
      · rw [if_pos ht]
        exact hstep
      · rw [if_neg ht]
        exact ih (k + 1) _ _ hstep

theorem phase2_traceCounts (fit : FitOracle) (sel : MCTSNode → Nat) (rewards : Nat → ℚ) :
    ∀ (n k : Nat) (t : MCTSNode) (trace : List (List Nat)), TraceCounts t trace →
    TraceCounts (phase2 fit sel rewards n k t trace).1
      (phase2 fit sel rewards n k t trace).2 := by
  intro n
  induction n with
  | zero =>
    intro k t trace h
    exact h
  | succ n ih =>
    intro k t trace h
    rw [phase2]
    exact ih (k + 1) _ _
      (traceCounts_of_step t _ _ trace (mctsIter_visits fit sel (rewards k) t) h)

theorem traceCounts_init (student : Student) (schools : List School) :
    TraceCounts (mkNode student schools 0 none) [] := by
  constructor
  · intro p hp
    cases hp
  · intro q n hn
    cases q with
    | nil =>
      rw [followPath] at hn
      injection hn with hn
      rw [← hn]
      rfl
    | cons j q' => exact Option.noConfusion hn

theorem mcts_search_snd (fit : FitOracle) (sel : MCTSNode → Nat) (rewards : Nat → ℚ)
    (timeUp : Nat → Bool) (n2 : Nat) (student : Student) (schools : List School) :
    (mcts_search fit sel rewards timeUp n2 student schools).2 =
      phase2 fit sel rewards n2
        (phase1 fit rewards timeUp (mkNode student schools 0 none)).2.2
        (phase1 fit rewards timeUp (mkNode student schools 0 none)).1
        (phase1 fit rewards timeUp (mkNode student schools 0 none)).2.1 := by
  rw [mcts_search]
  cases (phase2 fit sel rewards n2
      (phase1 fit rewards timeUp (mkNode student schools 0 none)).2.2
      (phase1 fit rewards timeUp (mkNode student schools 0 none)).1
      (phase1 fit rewards timeUp (mkNode student schools 0 none)).2.1).1.children <;> rfl

theorem mcts_search_traceCounts (fit : FitOracle) (sel : MCTSNode → Nat) (rewards : Nat → ℚ)
    (timeUp : Nat → Bool) (n2 : Nat) (student : Student) (schools : List School) :
    TraceCounts (mcts_search fit sel rewards timeUp n2 student schools).2.1
      (mcts_search fit sel rewards timeUp n2 student schools).2.2 := by
  have hsnd := mcts_search_snd fit sel rewards timeUp n2 student schools
  have h1 : TraceCounts (phase1 fit rewards timeUp (mkNode student schools 0 none)).1
      (phase1 fit rewards timeUp (mkNode student schools 0 none)).2.1 :=
    phase1Go_traceCounts fit rewards timeUp _ 0 _ [] (traceCounts_init student schools)
  have h2 := phase2_traceCounts fit sel rewards n2
    (phase1 fit rewards timeUp (mkNode student schools 0 none)).2.2
    (phase1 fit rewards timeUp (mkNode student schools 0 none)).1
    (phase1 fit rewards timeUp (mkNode student schools 0 none)).2.1 h1
  rw [show (mcts_search fit sel rewards timeUp n2 student schools).2.1 =
      ((mcts_search fit sel rewards timeUp n2 student schools).2).1 from rfl,
    show (mcts_search fit sel rewards timeUp n2 student schools).2.2 =
      ((mcts_search fit sel rewards timeUp n2 student schools).2).2 from rfl, hsnd]
  exact h2

theorem sum_map_zero {α : Type} (l : List α) : (l.map (fun _ => (0 : Nat))).sum = 0 := by
  induction l with
  | nil => rfl
  | cons x xs ih => simp [ih]

theorem sum_map_add {α : Type} (l : List α) (f g : α → Nat) :
    (l.map (fun x => f x + g x)).sum = (l.map f).sum + (l.map g).sum := by
  induction l with
  | nil => rfl
  | cons x xs ih =>
    simp only [List.map_cons, List.sum_cons, ih]
    omega

theorem extends_length_le (l1 l2 : List Nat) (h : l1 <+: l2) : l1.length ≤ l2.length := by
  rcases h with ⟨t, ht⟩
  rw [← ht, List.length_append]
  omega

theorem appendExtends_append (l l1 l2 : List Nat) : (l ++ l1) <+: (l ++ l2) ↔ l1 <+: l2 := by
  constructor
  · rintro ⟨t, ht⟩
    rw [List.append_assoc] at ht
    exact ⟨t, List.append_cancel_left ht⟩
  · rintro ⟨t, ht⟩
    exact ⟨t, by rw [List.append_assoc, ht]⟩

theorem sum_range_indicator (len j : Nat) :
    ((List.range len).map (fun i => if i = j then (1 : Nat) else 0)).sum =
      if j < len then 1 else 0 := by
  induction len with
  | zero => simp
  | succ n ih =>
    rw [List.range_succ, List.map_append, List.sum_append, ih]
    by_cases h1 : j < n
    · rw [if_pos h1, if_pos (by omega)]
      simp [Nat.ne_of_lt' h1]
    · by_cases h2 : n = j
      · rw [if_neg h1, if_pos (by omega)]
        simp [h2]
      · rw [if_neg h1, if_neg (by omega)]
        simp [h2]

theorem followPath_append (q1 q2 : List Nat) :
    ∀ t : MCTSNode, followPath (q1 ++ q2) t = (followPath q1 t).bind (followPath q2) := by
  induction q1 with
  | nil => intro t; rfl
  | cons j q' ih =>
    intro t
    rw [List.cons_append, followPath, followPath]
    cases t.children[j]? with
    | none => rfl
    | some c => exact ih c

theorem indicator_partition (T n : MCTSNode) (q : List Nat)
    (hn : followPath q T = some n) (p : List Nat)
    (hp : (visitsAt T p).isSome = true) :
    (if q <+: p then (1 : Nat) else 0) =
      (if p = q then (1 : Nat) else 0) +
      ((List.range n.children.length).map
        (fun i => if (q ++ [i]) <+: p then (1 : Nat) else 0)).sum := by
  by_cases hqp : q <+: p
  · rcases hqp with ⟨s, hs⟩
    subst hs
    cases s with
    | nil =>
      rw [List.append_nil]
      rw [if_pos ⟨[], List.append_nil q⟩, if_pos rfl]
      have hmap : (List.range n.children.length).map
          (fun i => if (q ++ [i]) <+: q then (1 : Nat) else 0) =
          (List.range n.children.length).map (fun _ => (0 : Nat)) := by
        apply List.map_congr_left
        intro i _
        rw [if_neg]
        intro hcon
        have hlen := extends_length_le _ _ hcon
        rw [List.length_append] at hlen
        simp at hlen
      rw [hmap, sum_map_zero]
    | cons j s' =>
      rw [if_pos ⟨j :: s', rfl⟩]
      rw [if_neg (by
        intro hcon
        have := congrArg List.length hcon
        rw [List.length_append] at this
        simp at this)]
      have hj : j < n.children.length := by
        have happ := followPath_append q (j :: s') T
        rw [hn] at happ
        have hp2 : (followPath (q ++ j :: s') T).isSome = true := by
          rw [visitsAt] at hp
          cases hf : followPath (q ++ j :: s') T with
          | none => rw [hf] at hp; exact absurd hp (by simp)
          | some x => rfl
        rw [happ] at hp2
        have hp3 : (followPath (j :: s') n).isSome = true := hp2
        rw [followPath] at hp3
        cases hc : n.children[j]? with
        | none => rw [hc] at hp3; exact absurd hp3 (by simp)
        | some c =>
          rcases List.getElem?_eq_some_iff.mp hc with ⟨hlt, -⟩
          exact hlt
      have hiff : ∀ i, ((q ++ [i]) <+: (q ++ j :: s')) ↔ i = j := by
        intro i
        rw [appendExtends_append]
        constructor
        · intro hcon
          exact ((consExtends_cons i j [] s').mp hcon).1
        · rintro rfl
          exact (consExtends_cons i i [] s').mpr ⟨rfl, nilExtends s'⟩
      have hmap : (List.range n.children.length).map
          (fun i => if (q ++ [i]) <+: (q ++ j :: s') then (1 : Nat) else 0) =
          (List.range n.children.length).map (fun i => if i = j then (1 : Nat) else 0) := by
        apply List.map_congr_left
        intro i _
        by_cases hij : i = j
        · rw [if_pos ((hiff i).mpr hij), if_pos hij]
        · rw [if_neg (fun hcon => hij ((hiff i).mp hcon)), if_neg hij]
      rw [hmap, sum_range_indicator, if_pos hj]
  · rw [if_neg hqp, if_neg (by rintro rfl; exact hqp ⟨[], List.append_nil _⟩)]
    have hmap : (List.range n.children.length).map
        (fun i => if (q ++ [i]) <+: p then (1 : Nat) else 0) =
        (List.range n.children.length).map (fun _ => (0 : Nat)) := by
      apply List.map_congr_left
      intro i _
      rw [if_neg (fun hcon => hqp (extendsTrans q (q ++ [i]) p ⟨[i], rfl⟩ hcon))]
    rw [hmap, sum_map_zero]

theorem count_partition (T n : MCTSNode) (q : List Nat) (hn : followPath q T = some n) :
    ∀ (trace : List (List Nat)), (∀ p ∈ trace, validPath T p) →
    trace.countP (fun p => decide (q <+: p)) =
      trace.countP (fun p => decide (p = q)) +
      ((List.range n.children.length).map
        (fun i => trace.countP (fun p => decide ((q ++ [i]) <+: p)))).sum := by
  intro trace
  induction trace with
  | nil =>
    intro _
    simp [List.countP_nil, sum_map_zero]
  | cons p ps ih =>
    intro hval
    have hvalps : ∀ x ∈ ps, validPath T x := fun x hx => hval x (List.mem_cons_of_mem _ hx)
    have hvp : (visitsAt T p).isSome = true :=
      (validPath_iff T p).mp (hval p (List.mem_cons_self _ _))
    rw [List.countP_cons, List.countP_cons, ih hvalps]
    have hmap : (List.range n.children.length).map
        (fun i => (p :: ps).countP (fun x => decide ((q ++ [i]) <+: x))) =
        (List.range n.children.length).map
          (fun i => ps.countP (fun x => decide ((q ++ [i]) <+: x)) +
            if (q ++ [i]) <+: p then 1 else 0) := by
      apply List.map_congr_left
      intro i _
      rw [List.countP_cons]
      by_cases hc : (q ++ [i]) <+: p <;> simp [hc]
    rw [hmap, sum_map_add]
    have hind := indicator_partition T n q hn p hvp
    simp only [decide_eq_true_eq]
    omega

theorem map_sum_eq_range_sum (f : MCTSNode → Nat) :
    ∀ (l : List MCTSNode) (g : Nat → Nat),
    (∀ (i : Nat) (h : i < l.length), g i = f (l.get ⟨i, h⟩)) →
    (l.map f).sum = ((List.range l.length).map g).sum := by
  intro l
  induction l with
  | nil =>
    intro g _
    rfl
  | cons x xs ih =>
    intro g hg
    have hg' : ∀ (i : Nat) (h : i < xs.length), (g ∘ Nat.succ) i = f (xs.get ⟨i, h⟩) := by
      intro i h
      exact hg (i + 1) (by simpa using Nat.succ_lt_succ h)
    rw [List.map_cons, List.sum_cons, List.length_cons, List.range_succ_eq_map,
      List.map_cons, List.sum_cons, List.map_map, ih (g ∘ Nat.succ) hg',
      hg 0 (by simp)]
    rfl

theorem traceCounts_conclusions (T : MCTSNode) (TR : List (List Nat))
    (hTC : TraceCounts T TR) :
    T.visits = TR.length ∧
    ∀ q n, followPath q T = some n →
      n.visits = TR.countP (fun p => decide (q <+: p)) ∧
      n.visits = (n.children.map MCTSNode.visits).sum +
        TR.countP (fun p => decide (p = q)) := by
  constructor
  · have hroot := hTC.2 [] T rfl
    rw [hroot]
    exact List.countP_eq_length.mpr (fun p _ => decide_eq_true (nilExtends p))
  · intro q n hn
    have h1 := hTC.2 q n hn
    refine ⟨h1, ?_⟩
    have hpart := count_partition T n q hn TR hTC.1
    have hchild : ∀ (i : Nat) (h : i < n.children.length),
        (fun i => TR.countP (fun p => decide ((q ++ [i]) <+: p))) i =
          MCTSNode.visits (n.children.get ⟨i, h⟩) := by
      intro i h
      have hfp : followPath (q ++ [i]) T = some (n.children.get ⟨i, h⟩) := by
        rw [followPath_append, hn]
        show followPath [i] n = _
        rw [followPath, List.getElem?_eq_getElem h]
        rfl
      exact (hTC.2 (q ++ [i]) _ hfp).symm
    have hsum := map_sum_eq_range_sum MCTSNode.visits n.children
      (fun i => TR.countP (fun p => decide ((q ++ [i]) <+: p))) hchild
    rw [h1, hpart, hsum]
    rw [Nat.add_comm]

/-- C2: throughout any run of `mcts_search` (modelled with the wall
clock, the UCB1 child choice of `best_child` and the rollout rewards as
universally quantified oracles), every tree node's `visits` counter
equals the number of backpropagation passes that touched it — the
returned trace records one backpropagation path per rollout, and a pass
along a path touches exactly the nodes addressed by its prefixes,
mirroring the source's walk up the `parent` chain.  Consequently the
root's `visits` equals the total number of rollouts executed, and every
node's `visits` equals the sum of its children's `visits` plus the
number of rollouts launched directly from that node. -/
theorem mcts_visits_invariant (fit : FitOracle) (sel : MCTSNode → Nat) (rewards : Nat → ℚ)
    (timeUp : Nat → Bool) (n2 : Nat) (student : Student) (schools : List School) :
    ((mcts_search fit sel rewards timeUp n2 student schools).2.1).visits =
      ((mcts_search fit sel rewards timeUp n2 student schools).2.2).length ∧
    ∀ q n,
      followPath q (mcts_search fit sel rewards timeUp n2 student schools).2.1 = some n →
      n.visits = ((mcts_search fit sel rewards timeUp n2 student schools).2.2).countP
        (fun p => decide (q <+: p)) ∧
      n.visits = (n.children.map MCTSNode.visits).sum +
        ((mcts_search fit sel rewards timeUp n2 student schools).2.2).countP
          (fun p => decide (p = q)) :=
  traceCounts_conclusions _ _ (mcts_search_traceCounts fit sel rewards timeUp n2 student schools)

theorem backprop_action (r : ℚ) : ∀ (p : List Nat) (t : MCTSNode),
    (backpropPath r p t).action = t.action := by
  intro p
  induction p with
  | nil =>
    intro t
    exact MCTSNode.incr_action t r
  | cons i p' ih =>
    intro t
    rw [show backpropPath r (i :: p') t =
        (match t.children[i]? with
         | none => t.incr r
         | some c => (t.incr r).setChild i (backpropPath r p' c)) from rfl]
    cases t.children[i]? with
    | none => exact MCTSNode.incr_action t r
    | some c => rw [MCTSNode.setChild_action, MCTSNode.incr_action]

theorem mctsIterGo_action (fit : FitOracle) (sel : MCTSNode → Nat) (r : ℚ) :
    ∀ (fuel : Nat) (t : MCTSNode), (mctsIterGo fit sel r fuel t).1.action = t.action := by
  intro fuel
  induction fuel with
  | zero =>
    intro t
    exact MCTSNode.incr_action t r
  | succ fuel ih =>
    intro t
    by_cases h1 : ¬ t.isTerminal ∧ t.fullyExpanded ∧ 0 < t.children.length
    · have hi : min (sel t) (t.children.length - 1) < t.children.length :=
        Nat.lt_of_le_of_lt (Nat.min_le_right _ _) (Nat.sub_lt h1.2.2 one_pos)
      rw [mctsIterGo_succ_sel fit sel r fuel t h1 hi]
      rw [MCTSNode.setChild_action, MCTSNode.incr_action]
    · by_cases h2 : ¬ t.isTerminal ∧ ¬ t.fullyExpanded
      · rw [mctsIterGo_succ_expand fit sel r fuel t h1 h2]
        rcases expandHere_spec fit t h2.2 with ⟨child, -, -, -, -, -, -, hact, -, -⟩
        show (backpropPath r [t.children.length] (t.expandHere fit)).action = t.action
        rw [backprop_action, hact]
      · rw [mctsIterGo_succ_term fit sel r fuel t h1 h2]
        exact MCTSNode.incr_action t r

theorem phase2_preserves_terminal (fit : FitOracle) (sel : MCTSNode → Nat)
    (rewards : Nat → ℚ) :
    ∀ (n k : Nat) (t : MCTSNode) (trace : List (List Nat)), t.isTerminal →
    (phase2 fit sel rewards n k t trace).1.children = t.children ∧
    (phase2 fit sel rewards n k t trace).1.action = t.action := by
  intro n
  induction n with
  | zero =>
    intro k t trace _
    exact ⟨rfl, rfl⟩
  | succ n ih =>
    intro k t trace ht
    rw [phase2]
    have hiter : mctsIter fit sel (rewards k) t = (t.incr (rewards k), []) := by
      rw [mctsIter]
      cases hsz : t.size with
      | zero =>
        have := t.size_pos
        omega
      | succ m =>
        exact mctsIterGo_succ_term fit sel (rewards k) m t (fun hcon => hcon.1 ht)
          (fun hcon => hcon.1 ht)
    rw [hiter]
    have htt : (t.incr (rewards k)).isTerminal := by
      rw [MCTSNode.isTerminal] at ht ⊢
      rcases ht with h | h
      · left
        rw [MCTSNode.incr_action]
        exact h
      · right
        rw [MCTSNode.incr_student, MCTSNode.incr_schools]
        exact h
    rcases ih (k + 1) (t.incr (rewards k)) (trace ++ [[]]) htt with ⟨h1, h2⟩
    exact ⟨by rw [h1, MCTSNode.incr_children], by rw [h2, MCTSNode.incr_action]⟩

theorem argmaxChild_mem : ∀ (cs : List MCTSNode) (b : MCTSNode), argmaxChild b cs ∈ b :: cs := by
  intro cs
  induction cs with
  | nil =>
    intro b
    rw [argmaxChild]
    exact List.mem_cons_self _ _
  | cons c cs ih =>
    intro b
    rw [argmaxChild]
    have h := ih (if avgReward b < avgReward c then c else b)
    rcases List.mem_cons.mp h with h' | h'
    · rw [h']
      by_cases hc : avgReward b < avgReward c
      · rw [if_pos hc]
        exact List.mem_cons_of_mem _ (List.mem_cons_self _ _)
      · rw [if_neg hc]
        exact List.mem_cons_self _ _
    · exact List.mem_cons_of_mem _ (List.mem_cons_of_mem _ h')

theorem mcts_search_cases (fit : FitOracle) (sel : MCTSNode → Nat) (rewards : Nat → ℚ)
    (timeUp : Nat → Bool) (n2 : Nat) (student : Student) (schools : List School) :
    ((mcts_search fit sel rewards timeUp n2 student schools).2.1.children = [] ∧
      (mcts_search fit sel rewards timeUp n2 student schools).1 = STOP_ACTION) ∨
    (∃ c cs, (mcts_search fit sel rewards timeUp n2 student schools).2.1.children = c :: cs ∧
      (mcts_search fit sel rewards timeUp n2 student schools).1 =
        (argmaxChild c cs).action.getD STOP_ACTION) := by
  rw [mcts_search]
  cases hc : (phase2 fit sel rewards n2
      (phase1 fit rewards timeUp (mkNode student schools 0 none)).2.2
      (phase1 fit rewards timeUp (mkNode student schools 0 none)).1
      (phase1 fit rewards timeUp (mkNode student schools 0 none)).2.1).1.children with
  | nil =>
    left
    exact ⟨hc, rfl⟩
  | cons c cs =>
    right
    exact ⟨c, cs, hc, rfl⟩

theorem rootOK_backprop (A : List String) (r : ℚ) (p : List Nat) (t : MCTSNode)
    (hu : ∀ a ∈ t.untried_actions, a ∈ A)
    (hc : ∀ c ∈ t.children, ∃ a ∈ A, c.action = some a) :
    (∀ a ∈ (backpropPath r p t).untried_actions, a ∈ A) ∧
    (∀ c ∈ (backpropPath r p t).children, ∃ a ∈ A, c.action = some a) := by
  cases p with
  | nil =>
    constructor
    · intro a ha
      rw [show backpropPath r [] t = t.incr r from rfl, MCTSNode.incr_untried] at ha
      exact hu a ha
    · intro c hcc
      rw [show backpropPath r [] t = t.incr r from rfl, MCTSNode.incr_children] at hcc
      exact hc c hcc
  | cons i p' =>
    have hred : backpropPath r (i :: p') t =
        (match t.children[i]? with
         | none => t.incr r
         | some c => (t.incr r).setChild i (backpropPath r p' c)) := rfl
    cases hci : t.children[i]? with
    | none =>
      rw [hred, hci]
      constructor
      · intro a ha
        rw [MCTSNode.incr_untried] at ha
        exact hu a ha
      · intro c hcc
        rw [MCTSNode.incr_children] at hcc
        exact hc c hcc
    | some c0 =>
      rw [hred, hci]
      constructor
      · intro a ha
        rw [MCTSNode.setChild_untried, MCTSNode.incr_untried] at ha
        exact hu a ha
      · intro c hcc
        rw [MCTSNode.setChild_children, MCTSNode.incr_children] at hcc
        rcases List.mem_or_eq_of_mem_set hcc with h | h
        · exact hc c h
        · rcases hc c0 (List.getElem?_mem hci) with ⟨a, haA, hact⟩
          exact ⟨a, haA, by rw [h, backprop_action, hact]⟩

theorem rootOK_expand (A : List String) (fit : FitOracle) (t : MCTSNode)
    (hu : ∀ a ∈ t.untried_actions, a ∈ A)
    (hc : ∀ c ∈ t.children, ∃ a ∈ A, c.action = some a) :
    (∀ a ∈ (t.expandHere fit).untried_actions, a ∈ A) ∧
    (∀ c ∈ (t.expandHere fit).children, ∃ a ∈ A, c.action = some a) := by
  by_cases hfe : t.fullyExpanded
  · have hid : t.expandHere fit = t := by
      cases t with
      | mk s sc hh a u v r c =>
        have hu0 : u = [] := hfe
        subst hu0
        rfl
    rw [hid]
    exact ⟨hu, hc⟩
  · rcases expandHere_spec fit t hfe with ⟨child, -, -, ⟨a0, ha0u, ha0⟩, hch, hun, -, -, -, -⟩
    constructor
    · intro a ha
      rw [hun] at ha
      exact hu a (List.dropLast_subset _ ha)
    · intro c hcc
      rw [hch] at hcc
      rcases List.mem_append.mp hcc with h | h
      · exact hc c h
      · rcases List.mem_singleton.mp h with rfl
        exact ⟨a0, hu a0 ha0u, ha0⟩

theorem rootOK_mctsIterGo (A : List String) (fit : FitOracle) (sel : MCTSNode → Nat) (r : ℚ) :
    ∀ (fuel : Nat) (t : MCTSNode),
    (∀ a ∈ t.untried_actions, a ∈ A) →
    (∀ c ∈ t.children, ∃ a ∈ A, c.action = some a) →
    (∀ a ∈ (mctsIterGo fit sel r fuel t).1.untried_actions, a ∈ A) ∧
    (∀ c ∈ (mctsIterGo fit sel r fuel t).1.children, ∃ a ∈ A, c.action = some a) := by
  intro fuel
  cases fuel with
  | zero =>
    intro t hu hc
    constructor
    · intro a ha
      rw [show (mctsIterGo fit sel r 0 t).1 = t.incr r from rfl, MCTSNode.incr_untried] at ha
      exact hu a ha
    · intro c hcc
      rw [show (mctsIterGo fit sel r 0 t).1 = t.incr r from rfl, MCTSNode.incr_children] at hcc
      exact hc c hcc
  | succ fuel =>
    intro t hu hc
    by_cases h1 : ¬ t.isTerminal ∧ t.fullyExpanded ∧ 0 < t.children.length
    · have hi : min (sel t) (t.children.length - 1) < t.children.length :=
        Nat.lt_of_le_of_lt (Nat.min_le_right _ _) (Nat.sub_lt h1.2.2 one_pos)
      rw [mctsIterGo_succ_sel fit sel r fuel t h1 hi]
      constructor
      · intro a ha
        rw [MCTSNode.setChild_untried, MCTSNode.incr_untried] at ha
        exact hu a ha
      · intro c hcc
        rw [MCTSNode.setChild_children, MCTSNode.incr_children] at hcc
        rcases List.mem_or_eq_of_mem_set hcc with h | h
        · exact hc c h
        · rcases hc (t.children.get ⟨min (sel t) (t.children.length - 1), hi⟩)
            (List.get_mem _ _ _) with ⟨a, haA, hact⟩
          exact ⟨a, haA, by rw [h, mctsIterGo_action, hact]⟩
    · by_cases h2 : ¬ t.isTerminal ∧ ¬ t.fullyExpanded
      · rw [mctsIterGo_succ_expand fit sel r fuel t h1 h2]
        have hexp := rootOK_expand A fit t hu hc
        exact rootOK_backprop A r [t.children.length] (t.expandHere fit) hexp.1 hexp.2
      · rw [mctsIterGo_succ_term fit sel r fuel t h1 h2]
        constructor
        · intro a ha
          rw [MCTSNode.incr_untried] at ha
          exact hu a ha
        · intro c hcc
          rw [MCTSNode.incr_children] at hcc
          exact hc c hcc

theorem rootOK_phase1Go (A : List String) (fit : FitOracle) (rewards : Nat → ℚ)
    (timeUp : Nat → Bool) :
    ∀ (fuel k : Nat) (t : MCTSNode) (trace : List (List Nat)),
    (∀ a ∈ t.untried_actions, a ∈ A) →
    (∀ c ∈ t.children, ∃ a ∈ A, c.action = some a) →
    (∀ a ∈ (phase1Go fit rewards timeUp fuel k t trace).1.untried_actions, a ∈ A) ∧
    (∀ c ∈ (phase1Go fit rewards timeUp fuel k t trace).1.children,
      ∃ a ∈ A, c.action = some a) := by
  intro fuel
  induction fuel with
  | zero =>
    intro k t trace hu hc
    exact ⟨hu, hc⟩
  | succ fuel ih =>
    intro k t trace hu hc
    rw [phase1Go]
    by_cases hfe : t.fullyExpanded
    · rw [if_pos hfe]
      exact ⟨hu, hc⟩
    · rw [if_neg hfe]
      have hexp := rootOK_expand A fit t hu hc
      have hstep := rootOK_backprop A (rewards k) [t.children.length] (t.expandHere fit)
        hexp.1 hexp.2
      by_cases ht : timeUp (k + 1) = true
      · rw [if_pos ht]
        exact hstep
      · rw [if_neg ht]
        exact ih (k + 1) _ _ hstep.1 hstep.2

theorem rootOK_phase2 (A : List String) (fit : FitOracle) (sel : MCTSNode → Nat)
    (rewards : Nat → ℚ) :
    ∀ (n k : Nat) (t : MCTSNode) (trace : List (List Nat)),
    (∀ a ∈ t.untried_actions, a ∈ A) →
    (∀ c ∈ t.children, ∃ a ∈ A, c.action = some a) →
    (∀ a ∈ (phase2 fit sel rewards n k t trace).1.untried_actions, a ∈ A) ∧
    (∀ c ∈ (phase2 fit sel rewards n k t trace).1.children, ∃ a ∈ A, c.action = some a) := by
  intro n
  induction n with
  | zero =>
    intro k t trace hu hc
    exact ⟨hu, hc⟩
  | succ n ih =>
    intro k t trace hu hc
    rw [phase2]
    have hstep := rootOK_mctsIterGo A fit sel (rewards k) t.size t hu hc
    exact ih (k + 1) _ _ hstep.1 hstep.2

theorem mcts_search_result_valid (fit : FitOracle) (sel : MCTSNode → Nat)
    (rewards : Nat → ℚ) (timeUp : Nat → Bool) (n2 : Nat) (student : Student)
    (schools : List School) :
    (mcts_search fit sel rewards timeUp n2 student schools).1 = STOP_ACTION ∨
    (mcts_search fit sel rewards timeUp n2 student schools).1 ∈
      available_actions student schools := by
  have h1 := rootOK_phase1Go (available_actions student schools) fit rewards timeUp
    (mkNode student schools 0 none).untried_actions.length 0 (mkNode student schools 0 none)
    [] (fun a ha => ha) (fun c hcc => absurd hcc (List.not_mem_nil c))
  have h2 := rootOK_phase2 (available_actions student schools) fit sel rewards n2
    (phase1 fit rewards timeUp (mkNode student schools 0 none)).2.2
    (phase1 fit rewards timeUp (mkNode student schools 0 none)).1
    (phase1 fit rewards timeUp (mkNode student schools 0 none)).2.1 h1.1 h1.2
  have hsnd := mcts_search_snd fit sel rewards timeUp n2 student schools
  rcases mcts_search_cases fit sel rewards timeUp n2 student schools with
    ⟨-, hres⟩ | ⟨c, cs, hch, hres⟩
  · left
    exact hres
  · have hmem : argmaxChild c cs ∈
        (mcts_search fit sel rewards timeUp n2 student schools).2.1.children := by
      rw [hch]
      exact argmaxChild_mem cs c
    rw [show (mcts_search fit sel rewards timeUp n2 student schools).2.1 =
        ((mcts_search fit sel rewards timeUp n2 student schools).2).1 from rfl, hsnd] at hmem
    rcases h2.2 _ hmem with ⟨a, haA, hact⟩
    right
    rw [hres, hact]
    exact haA

/-! ## C6 — one-school end-to-end scenario -/

theorem not_mem_available_of_hours (student : Student) (schools : List School) (nm : String)
    (hne : nm ≠ STOP_ACTION) (hge : MAX_HOURS_PER_SCHOOL ≤ get_total_hours student nm) :
    nm ∉ available_actions student schools := by
  intro hmem
  rcases exists_school_of_available student schools nm hmem hne with ⟨w, -, -, hlt, hname⟩
  rw [hname] at hlt
  linarith

/-- C6 counterexample: in the spec's one-school scenario (one applying
school, empty essay history), a single visit already raises the
school's hours to `2.0` and removes it from `available_actions` — it
does not stay available until a second visit raises the hours to 4. -/
theorem available_actions_one_visit_cex :
    get_total_hours (apply_action (fun _ _ => none)
        (⟨1550, 4, 99 / 100, [], []⟩ : Student) [⟨"A", 5, [], true, 100⟩] "A").1 ("A") = 2 ∧
    "A" ∉ available_actions (apply_action (fun _ _ => none)
        (⟨1550, 4, 99 / 100, [], []⟩ : Student) [⟨"A", 5, [], true, 100⟩] "A").1
      [⟨"A", 5, [], true, 100⟩] := by
  have h0 : get_total_hours (⟨1550, 4, 99 / 100, [], []⟩ : Student) "A" = 0 := by decide
  have hself := get_total_hours_apply_self (fun _ _ => none) ⟨1550, 4, 99 / 100, [], []⟩
    [⟨"A", 5, [], true, 100⟩] "A" (by decide)
  constructor
  · rw [hself, h0]
    norm_num
  · apply not_mem_available_of_hours _ _ _ (by decide)
    rw [hself, h0, MAX_HOURS_PER_SCHOOL]
    norm_num

/-- C6 (amended): when the available actions are exactly
`[name, STOP]` (the catalog has exactly one applying school and its
hours are below the cap), `mcts_search` returns either that school's
name or `STOP` — never an unavailable or unknown action — for every
clock, selection and reward oracle; and the school leaves
`available_actions` after a *single* visit, which raises its
cumulative hours by `2.0` to at least `MAX_HOURS_PER_SCHOOL`. -/
theorem mcts_search_one_school (fit : FitOracle) (sel : MCTSNode → Nat)
    (rewards : Nat → ℚ) (timeUp : Nat → Bool) (n2 : Nat) (student : Student)
    (schools : List School) (nm : String)
    (hA : available_actions student schools = [nm, STOP_ACTION])
    (hne : nm ≠ STOP_ACTION) (hnn : 0 ≤ get_total_hours student nm) :
    ((mcts_search fit sel rewards timeUp n2 student schools).1 = nm ∨
     (mcts_search fit sel rewards timeUp n2 student schools).1 = STOP_ACTION) ∧
    get_total_hours (apply_action fit student schools nm).1 nm =
      get_total_hours student nm + 2 ∧
    nm ∉ available_actions (apply_action fit student schools nm).1 schools := by
  refine ⟨?_, get_total_hours_apply_self fit student schools nm hne, ?_⟩
  · rcases mcts_search_result_valid fit sel rewards timeUp n2 student schools with h | h
    · right
      exact h
    · rw [hA] at h
      rcases List.mem_cons.mp h with h' | h'
      · left
        exact h'
      · right
        exact List.mem_singleton.mp h'
  · apply not_mem_available_of_hours _ _ _ hne
    rw [get_total_hours_apply_self fit student schools nm hne, MAX_HOURS_PER_SCHOOL]
    linarith

/-- C6 witness: the concrete one-school scenario of the spec. -/
theorem mcts_search_one_school_witness :
    ((mcts_search (fun _ _ => none) (fun _ => 0) (fun _ => 0) (fun _ => false) 0
        (⟨1550, 4, 99 / 100, [], []⟩ : Student) [⟨"A", 5, [], true, 100⟩]).1 = "A" ∨
     (mcts_search (fun _ _ => none) (fun _ => 0) (fun _ => 0) (fun _ => false) 0
        (⟨1550, 4, 99 / 100, [], []⟩ : Student) [⟨"A", 5, [], true, 100⟩]).1 =
       STOP_ACTION) :=
  (mcts_search_one_school (fun _ _ => none) (fun _ => 0) (fun _ => 0) (fun _ => false) 0
    ⟨1550, 4, 99 / 100, [], []⟩ [⟨"A", 5, [], true, 100⟩] "A" (by decide) (by decide)
    (by decide)).1

/-! ## C7 — run on a root with no non-STOP action -/

theorem phase1Go_one (fit : FitOracle) (rewards : Nat → ℚ) (timeUp : Nat → Bool) (k : Nat)
    (t : MCTSNode) (trace : List (List Nat)) (h : ¬ t.fullyExpanded) :
    (phase1Go fit rewards timeUp 1 k t trace).1 =
      backpropPath (rewards k) [t.children.length] (t.expandHere fit) := by
  rw [show (1 : Nat) = 0 + 1 from rfl, phase1Go, if_neg h]
  by_cases ht : timeUp (k + 1) = true
  · rw [if_pos ht]
  · rw [if_neg ht, phase1Go]

theorem phase1_stop (fit : FitOracle) (rewards : Nat → ℚ) (timeUp : Nat → Bool)
    (student : Student) (schools : List School)
    (hA : available_actions student schools = [STOP_ACTION]) :
    (phase1 fit rewards timeUp (mkNode student schools 0 none)).1 =
      MCTSNode.mk student schools 0 none [] 1 (0 + rewards 0)
        [MCTSNode.mk student schools (0 + 0) (some STOP_ACTION)
          (available_actions student schools) 1 (0 + rewards 0) []] := by
  have hroot : mkNode student schools 0 none =
      MCTSNode.mk student schools 0 none [STOP_ACTION] 0 0 [] := by
    rw [mkNode, hA]
  rw [hroot, phase1]
  rw [show (MCTSNode.mk student schools 0 none [STOP_ACTION] 0 0
      []).untried_actions.length = 1 from rfl]
  rw [phase1Go_one fit rewards timeUp 0 _ [] (by
    rw [MCTSNode.fullyExpanded]
    simp [MCTSNode.untried_actions])]
  rfl

/-- C7 counterexample: on a root state with zero non-STOP actions
(empty catalog), `mcts_search` does return `STOP`, but only after one
expansion — the `STOP` action itself is expanded into a child during
the guaranteed first-layer phase, so the number of expansions is one,
not zero. -/
theorem mcts_search_stop_expansion_cex :
    ((mcts_search (fun _ _ => none) (fun _ => 0) (fun _ => 0) (fun _ => true) 0
        (⟨1550, 4, 99 / 100, [], []⟩ : Student) []).2.1).children.length = 1 ∧
    (mcts_search (fun _ _ => none) (fun _ => 0) (fun _ => 0) (fun _ => true) 0
        (⟨1550, 4, 99 / 100, [], []⟩ : Student) []).1 = STOP_ACTION := by
  decide

/-- C7 (amended): when the root state has zero non-STOP available
actions, `mcts_search` returns `STOP`, but after performing exactly one
expansion (the `STOP` child created by the guaranteed first-layer
phase), not zero; and in general, whenever the final root has no
children, the driver returns `STOP`. -/
theorem mcts_search_stop (fit : FitOracle) (sel : MCTSNode → Nat) (rewards : Nat → ℚ)
    (timeUp : Nat → Bool) (n2 : Nat) (student : Student) (schools : List School)
    (hA : available_actions student schools = [STOP_ACTION]) :
    (mcts_search fit sel rewards timeUp n2 student schools).1 = STOP_ACTION ∧
    ((mcts_search fit sel rewards timeUp n2 student schools).2.1).children.length = 1 ∧
    (∀ (fit' : FitOracle) (sel' : MCTSNode → Nat) (rewards' : Nat → ℚ)
      (timeUp' : Nat → Bool) (n2' : Nat) (student' : Student) (schools' : List School),
      (mcts_search fit' sel' rewards' timeUp' n2' student' schools').2.1.children = [] →
      (mcts_search fit' sel' rewards' timeUp' n2' student' schools').1 = STOP_ACTION) := by
  have hgen : ∀ (fit' : FitOracle) (sel' : MCTSNode → Nat) (rewards' : Nat → ℚ)
      (timeUp' : Nat → Bool) (n2' : Nat) (student' : Student) (schools' : List School),
      (mcts_search fit' sel' rewards' timeUp' n2' student' schools').2.1.children = [] →
      (mcts_search fit' sel' rewards' timeUp' n2' student' schools').1 = STOP_ACTION := by
    intro fit' sel' rewards' timeUp' n2' student' schools' hnil
    rcases mcts_search_cases fit' sel' rewards' timeUp' n2' student' schools' with
      ⟨-, hres⟩ | ⟨c, cs, hch, -⟩
    · exact hres
    · rw [hnil] at hch
      exact List.noConfusion hch
  have hp1 := phase1_stop fit rewards timeUp student schools hA
  have hterm : (MCTSNode.mk student schools 0 none [] 1 (0 + rewards 0)
      [MCTSNode.mk student schools (0 + 0) (some STOP_ACTION)
        (available_actions student schools) 1 (0 + rewards 0) []]).isTerminal := by
    rw [MCTSNode.isTerminal]
    right
    show (available_actions student schools).length = 1
    rw [hA]
    rfl
  have hsnd := mcts_search_snd fit sel rewards timeUp n2 student schools
  have htree : (mcts_search fit sel rewards timeUp n2 student schools).2.1 =
      (phase2 fit sel rewards n2
        (phase1 fit rewards timeUp (mkNode student schools 0 none)).2.2
        (MCTSNode.mk student schools 0 none [] 1 (0 + rewards 0)
          [MCTSNode.mk student schools (0 + 0) (some STOP_ACTION)
            (available_actions student schools) 1 (0 + rewards 0) []])
        (phase1 fit rewards timeUp (mkNode student schools 0 none)).2.1).1 := by
    rw [show (mcts_search fit sel rewards timeUp n2 student schools).2.1 =
        ((mcts_search fit sel rewards timeUp n2 student schools).2).1 from rfl, hsnd, hp1]
  have hch : (mcts_search fit sel rewards timeUp n2 student schools).2.1.children =
      [MCTSNode.mk student schools (0 + 0) (some STOP_ACTION)
        (available_actions student schools) 1 (0 + rewards 0) []] := by
    rw [htree]
    exact (phase2_preserves_terminal fit sel rewards n2 _ _ _ hterm).1
  refine ⟨?_, by rw [hch]; rfl, hgen⟩
  rcases mcts_search_cases fit sel rewards timeUp n2 student schools with
    ⟨-, hres⟩ | ⟨c, cs, hch2, hres⟩
  · exact hres
  · rw [hch] at hch2
    injection hch2 with hc hcs
    rw [hres, ← hc, ← hcs, argmaxChild]
    rfl

/-- C7 witness: the empty-catalog scenario (no applying schools). -/
theorem mcts_search_stop_witness :
    (mcts_search (fun _ _ => none) (fun _ => 0) (fun _ => 0) (fun _ => false) 1
        (⟨1550, 4, 99 / 100, [], []⟩ : Student) []).1 = STOP_ACTION :=
  (mcts_search_stop (fun _ _ => none) (fun _ => 0) (fun _ => 0) (fun _ => false) 1
    ⟨1550, 4, 99 / 100, [], []⟩ [] (by decide)).1

/-- C2 witness: on a concrete run, the root node's visit counter equals
the number of recorded backpropagation passes that touched the root. -/
theorem mcts_visits_invariant_witness :
    ((mcts_search (fun _ _ => none) (fun _ => 0) (fun _ => 0) (fun _ => true) 1
        (⟨1550, 4, 99 / 100, [], []⟩ : Student) []).2.1).visits =
      ((mcts_search (fun _ _ => none) (fun _ => 0) (fun _ => 0) (fun _ => true) 1
        (⟨1550, 4, 99 / 100, [], []⟩ : Student) []).2.2).countP
        (fun p => decide (([] : List Nat) <+: p)) :=
  ((mcts_visits_invariant (fun _ _ => none) (fun _ => 0) (fun _ => 0) (fun _ => true) 1
    ⟨1550, 4, 99 / 100, [], []⟩ []).2 [] _ rfl).1
